import Mathlib

/-!
# hSweep: the classic decomposition stepping engine and the accelerator detector

A shallow embedding of `src/decomposition/classic.h` and of the assignment loop of
`src/utilities/gpuDetector.cpp`.

Conventions of the embedding.

* A C `int` is an `Int` (signed overflow is undefined behaviour in C and is not modelled).
* A C `double` is a rational number and arithmetic on it is exact, except in the part on
  double precision, where sums are rounded as the machine rounds them.
* A `states *` pointer is the function giving the cell at each offset from it.
* The macros `TAGS`, `MODULA`, `QUARTER`, the update rule `stepUpdate` and the
  globals `cGlob`, `ranks` are declared in headers; they are parameters here.
* Diagnostic printing (`std::cout`, `printf`) has no effect on the modelled state and
  is left out.
-/

namespace HSweep

/-! ## Data model -/

/-- The cells reachable from a `states *` pointer, by offset. -/
abbrev Partition (α : Type) := Int → α

/-- The buffers of `classicWrapper`: `state[0]`, `state[1]`, `state[2]` and the device
array `dState`. -/
inductive Buf where
  | state (i : Fin 3)
  | dState
  deriving DecidableEq

/-- The memory of one process: the contents of each buffer. -/
abbrev Mem (α : Type) := Buf → Partition α

/-- The fields of the global configuration `cGlob` that the engine reads. -/
structure Globals where
  /-- Entries `bCond[0]` (left edge) and `bCond[1]` (right edge). -/
  bCond : Fin 2 → Bool
  hasGpu : Bool
  xcpu : Int
  xg : Int
  gBks : Int
  tpb : Int
  dt : ℚ
  tf : ℚ
  freq : ℚ

/-- What the headers supply to `classic.h`: macros, the update rule, the kernel launch. -/
structure Externals (α : Type) where
  /-- The update rule `stepUpdate(state, idx, tstep)`; it works in place. -/
  stepUpdate : Partition α → Int → Int → Partition α
  /-- The net effect on the device array of `classicStep<<<gBks, tpb>>>(dState, ts)`. -/
  classicStep : Int → Int → Partition α → Int → Partition α
  TAGS : Int → Int
  MODULA : Int → Bool
  QUARTER : ℚ

/-- A call into the message-passing library, with the offset of the one-element buffer
(taken from the partition pointer the caller was given), the peer rank and the tag. -/
inductive MPICall where
  | Isend (buf : Int) (dest : Int) (tag : Int)
  | Recv (buf : Int) (source : Int) (tag : Int)
  deriving DecidableEq

/-- What a process does that is visible from outside. -/
inductive Event (α : Type) where
  | sent (dest tag : Int) (payload : α)
  | received (source tag : Int) (payload : α)
  /-- The call `solutionOutput(state[i], t_eq, k, xpts[i])`, with the value at `state[i][k]`. -/
  | output (i : Fin 3) (value : α) (t : ℚ) (k : Int) (xpt : Int)

/-- Whether an event is a send or a receive. -/
def Event.isMessage {α : Type} : Event α → Bool
  | .sent _ _ _ => true
  | .received _ _ _ => true
  | .output _ _ _ _ _ => false

/-- Whether an event is an output call. -/
def Event.isOutput {α : Type} : Event α → Bool
  | .output _ _ _ _ _ => true
  | _ => false

/-! ## Counting loops -/

/-- The loop `for (; k < hi; k++) body(k)` run for at most `fuel` iterations. -/
def forLoop {σ : Type} (body : Int → σ → σ) (hi : Int) : Nat → Int → σ → σ
  | 0, _, s => s
  | fuel + 1, k, s => if k < hi then forLoop body hi fuel (k + 1) (body k s) else s

/-- The loop `for (int k = lo; k < hi; k++) body(k)`: `hi - lo` iterations suffice. -/
def forRange {σ : Type} (lo hi : Int) (body : Int → σ → σ) (s : σ) : σ :=
  forLoop body hi (hi - lo).toNat lo s

/-- The indices `lo, lo+1, ..., lo+n-1`. -/
def indices (lo : Int) (n : Nat) : List Int :=
  (List.range n).map (fun (i : Nat) => lo + (i : Int))

/-! ## `classicStepCPU` -/

/-- The host step executor:
`for (int k=1; k<numx; k++) stepUpdate(state, k, tstep);` -/
def classicStepCPU {σ : Type} (stepUpdate : σ → Int → Int → σ)
    (state : σ) (numx tstep : Int) : σ :=
  forRange 1 numx (fun k s => stepUpdate s k tstep) state

/-- An update rule instrumented with the list of indices it has been invoked at. -/
def logged {σ : Type} (stepUpdate : σ → Int → Int → σ) :
    σ × List Int → Int → Int → σ × List Int :=
  fun s k ts => (stepUpdate s.1 k ts, s.2 ++ [k])

/-! ## `classicPassLeft`, `classicPassRight` -/

/-- The left-edge exchange: under `cGlob.bCond[0]`, a non-blocking send of `state[1]` to
`ranks[0]` with tag `TAGS(tstep)`, then a blocking receive into `state[0]` from
`ranks[0]` with tag `TAGS(tstep+100)`. The parameter `idxend` is not used. -/
def classicPassLeft (cGlob : Globals) (ranks : Fin 3 → Int) (TAGS : Int → Int)
    (_idxend tstep : Int) : List MPICall :=
  if cGlob.bCond 0 then
    [MPICall.Isend 1 (ranks 0) (TAGS tstep), MPICall.Recv 0 (ranks 0) (TAGS (tstep + 100))]
  else []

/-- The right-edge exchange: under `cGlob.bCond[1]`, a non-blocking send of
`state[idxend-1]` to `ranks[2]` with tag `TAGS(tstep+100)`, then a blocking receive into
`state[idxend]` from `ranks[2]` with tag `TAGS(tstep)`. -/
def classicPassRight (cGlob : Globals) (ranks : Fin 3 → Int) (TAGS : Int → Int)
    (idxend tstep : Int) : List MPICall :=
  if cGlob.bCond 1 then
    [MPICall.Isend (idxend - 1) (ranks 2) (TAGS (tstep + 100)),
     MPICall.Recv idxend (ranks 2) (TAGS tstep)]
  else []

/-! ## One process seen from inside: receives deliver what the environment supplies -/

/-- The local state of a process running the engine. -/
structure Local (α : Type) where
  mem : Mem α
  t_eq : ℚ
  twrite : ℚ
  tmine : Int
  /-- Number of receives completed so far. -/
  nrecv : Nat
  trace : List (Event α)

/-- Store `v` at `b[k]`. -/
def Mem.write {α : Type} (m : Mem α) (b : Buf) (k : Int) (v : α) : Mem α :=
  Function.update m b (Function.update (m b) k v)

/-- One library call on buffer `b`, the `n`-th completed receive delivering `recvd n`.
A send reads its payload when it is issued. A receive is taken to be matched: a run in
which the neighbour never sends the message does not get past it and is not described
here. -/
def mpiCall {α : Type} (recvd : Nat → α) (b : Buf) (s : Local α) : MPICall → Local α
  | .Isend buf dest tag =>
      { s with trace := s.trace ++ [Event.sent dest tag (s.mem b buf)] }
  | .Recv buf source tag =>
      { s with mem := s.mem.write b buf (recvd s.nrecv),
               nrecv := s.nrecv + 1,
               trace := s.trace ++ [Event.received source tag (recvd s.nrecv)] }

/-- The calls in program order. -/
def mpiCalls {α : Type} (recvd : Nat → α) (b : Buf) (s : Local α)
    (calls : List MPICall) : Local α :=
  calls.foldl (mpiCall recvd b) s

/-! ## Device copies -/

/-- The call `cudaMemcpy(dst, src, n * szState, kind)`, with `szState` the size of one cell:
the cells `0 .. n-1` of `src` replace those of `dst`. -/
def Mem.copy {α : Type} (m : Mem α) (dst src : Buf) (n : Int) : Mem α :=
  Function.update m dst (fun k => if 0 ≤ k ∧ k < n then m src k else m dst k)

/-- A one-cell copy `cudaMemcpyAsync(dst, src, szState, kind, stream)`: each end is a
buffer and an offset. -/
structure Transfer where
  dst : Buf × Int
  src : Buf × Int
  deriving DecidableEq

/-- A one-cell copy carried out at once. -/
def Transfer.run {α : Type} (m : Mem α) (T : Transfer) : Mem α :=
  m.write T.dst.1 T.dst.2 (m T.src.1 T.src.2)

/-- The four copies of one iteration of the accelerator branch, in program order:
`dState <- state[0] + xc`, `dState + xgp <- state[2] + 1`,
`state[0] + xcp <- dState + 1`, `state[2] <- dState + xg`. -/
def transfers (xc xg : Int) : List Transfer :=
  let xcp := xc + 1
  let xgp := xg + 1
  [ { dst := (Buf.dState, 0), src := (Buf.state 0, xc) },
    { dst := (Buf.dState, xgp), src := (Buf.state 2, 1) },
    { dst := (Buf.state 0, xcp), src := (Buf.dState, 1) },
    { dst := (Buf.state 2, 0), src := (Buf.dState, xg) } ]

/-! ## `classicWrapper` -/

/-- The loop `while (cond) body` run for at most `fuel` iterations; `none` when the fuel
is used up with the condition still true. -/
def whileLoop {σ : Type} (cond : σ → Bool) (body : σ → σ) : Nat → σ → Option σ
  | 0, s => if cond s then none else some s
  | fuel + 1, s => if cond s then whileLoop cond body fuel (body s) else some s

/-- The host step executor applied in place to buffer `b`. -/
def stepCPUOn {α : Type} (ext : Externals α) (b : Buf) (numx : Int) (s : Local α) : Local α :=
  { s with mem := Function.update s.mem b (classicStepCPU ext.stepUpdate (s.mem b) numx s.tmine) }

/-- The kernel launch `classicStep<<<cGlob.gBks, cGlob.tpb>>> (dState, tmine)`. -/
def launch {α : Type} (cGlob : Globals) (ext : Externals α) (s : Local α) : Local α :=
  let d := ext.classicStep cGlob.gBks cGlob.tpb (s.mem Buf.dState) s.tmine
  { s with mem := Function.update s.mem Buf.dState d }

/-- The clock lines `if (MODULA(tmine)) t_eq += cGlob.dt; tmine++;`. -/
def tick {α : Type} (cGlob : Globals) (ext : Externals α) (s : Local α) : Local α :=
  { s with t_eq := if ext.MODULA s.tmine then s.t_eq + cGlob.dt else s.t_eq,
           tmine := s.tmine + 1 }

/-- The call `solutionOutput(state[i], t_eq, k, xpts[i])`. -/
def solutionOutput {α : Type} (xpts : Fin 3 → Int) (i : Fin 3) (k : Int) (s : Local α) :
    Local α :=
  { s with trace := s.trace ++ [Event.output i (s.mem (Buf.state i) k) s.t_eq k (xpts i)] }

/-- The loop `for (int k=1; k<=n; k++) solutionOutput(state[i], t_eq, k, xpts[i]);`. -/
def outputPartition {α : Type} (xpts : Fin 3 → Int) (n : Int) (s : Local α) (i : Fin 3) :
    Local α :=
  forRange 1 (n + 1) (solutionOutput xpts i) s

/-- The lines of an iteration of the branch without accelerator that come before the
output test (lines 147-153): host step, clock, then the right and the left exchange. -/
def hostAdvance {α : Type} (cGlob : Globals) (ranks : Fin 3 → Int) (ext : Externals α)
    (recvd : Nat → α) (s : Local α) : Local α :=
  let xcp := cGlob.xcpu + 1
  let s := stepCPUOn ext (Buf.state 0) xcp s
  let s := tick cGlob ext s
  let s := mpiCalls recvd (Buf.state 0) s (classicPassRight cGlob ranks ext.TAGS xcp s.tmine)
  mpiCalls recvd (Buf.state 0) s (classicPassLeft cGlob ranks ext.TAGS xcp s.tmine)

/-- The output block of the branch without accelerator (lines 155-159). -/
def hostOutput {α : Type} (cGlob : Globals) (xpts : Fin 3 → Int) (s : Local α) : Local α :=
  if s.t_eq > s.twrite then
    let s := outputPartition xpts cGlob.xcpu s 0
    { s with twrite := s.twrite + cGlob.freq }
  else s

/-- One iteration of the loop of the branch without accelerator (lines 147-159). -/
def hostBody {α : Type} (cGlob : Globals) (ranks : Fin 3 → Int) (ext : Externals α)
    (recvd : Nat → α) (xpts : Fin 3 → Int) (s : Local α) : Local α :=
  hostOutput cGlob xpts (hostAdvance cGlob ranks ext recvd s)

/-- The lines of an iteration of the accelerator branch that come before the output test
(lines 95-116): kernel launch, the two host steps, the four copies, the right exchange on
`state[2]`, the left exchange on `state[0]`, then the clock. The kernel and the copies
take effect in program order. -/
def gpuAdvance {α : Type} (cGlob : Globals) (ranks : Fin 3 → Int) (ext : Externals α)
    (recvd : Nat → α) (s : Local α) : Local α :=
  let xc := cGlob.xcpu.tdiv 2
  let xcp := xc + 1
  let s := launch cGlob ext s
  let s := stepCPUOn ext (Buf.state 0) xcp s
  let s := stepCPUOn ext (Buf.state 2) xcp s
  let s := { s with mem := (transfers xc cGlob.xg).foldl Transfer.run s.mem }
  let s := mpiCalls recvd (Buf.state 2) s (classicPassRight cGlob ranks ext.TAGS xcp s.tmine)
  let s := mpiCalls recvd (Buf.state 0) s (classicPassLeft cGlob ranks ext.TAGS xcp s.tmine)
  tick cGlob ext s

/-- The output block of the accelerator branch (lines 119-129). -/
def gpuOutput {α : Type} (cGlob : Globals) (xpts alen : Fin 3 → Int) (s : Local α) : Local α :=
  let xgpp := cGlob.xg + 2
  if s.t_eq > s.twrite then
    let s := { s with mem := s.mem.copy (Buf.state 1) Buf.dState xgpp }
    let s := [0, 1, 2].foldl (fun s i => outputPartition xpts (alen i) s i) s
    { s with twrite := s.twrite + cGlob.freq }
  else s

/-- One iteration of the loop of the accelerator branch (lines 95-129). -/
def gpuBody {α : Type} (cGlob : Globals) (ranks : Fin 3 → Int) (ext : Externals α)
    (recvd : Nat → α) (xpts alen : Fin 3 → Int) (s : Local α) : Local α :=
  gpuOutput cGlob xpts alen (gpuAdvance cGlob ranks ext recvd s)

/-- The locals of `classicWrapper` before either loop: `tmine = *tstep`, `t_eq = 0.0`,
`twrite = cGlob.freq - QUARTER*cGlob.dt`. -/
def initLocal {α : Type} (cGlob : Globals) (ext : Externals α) (mem : Mem α) (tstep : Int) :
    Local α :=
  { mem := mem, t_eq := 0, twrite := cGlob.freq - ext.QUARTER * cGlob.dt, tmine := tstep,
    nrecv := 0, trace := [] }

/-- The loop condition `t_eq < cGlob.tf`. -/
def running {α : Type} (cGlob : Globals) (s : Local α) : Bool :=
  decide (s.t_eq < cGlob.tf)

/-- What `classicWrapper` hands back: its return value, the counter stored through
`tstep`, the buffers and what the process did. -/
structure Returned (α : Type) where
  t_eq : ℚ
  tstep : Int
  mem : Mem α
  trace : List (Event α)

/-- The function `classicWrapper(state, xpts, alen, tstep)`. The argument `mem` holds
`state[0..2]` and, at `dState`, whatever the fresh device allocation contains. -/
def classicWrapper {α : Type} (fuel : Nat) (cGlob : Globals) (ranks : Fin 3 → Int)
    (ext : Externals α) (recvd : Nat → α) (mem : Mem α) (xpts alen : Fin 3 → Int)
    (tstep : Int) : Option (Returned α) :=
  let s := initLocal cGlob ext mem tstep
  if cGlob.hasGpu then
    let xgpp := cGlob.xg + 2
    let s := { s with mem := s.mem.copy Buf.dState (Buf.state 1) xgpp }
    (whileLoop (running cGlob) (gpuBody cGlob ranks ext recvd xpts alen) fuel s).map
      fun s =>
        { t_eq := s.t_eq, tstep := s.tmine,
          mem := s.mem.copy (Buf.state 1) Buf.dState xgpp, trace := s.trace }
  else
    (whileLoop (running cGlob) (hostBody cGlob ranks ext recvd xpts) fuel s).map
      fun s => { t_eq := s.t_eq, tstep := s.tmine, mem := s.mem, trace := s.trace }

/-! ## Reading a run -/

/-- The output calls of a trace, in order. -/
def outputs {α : Type} (tr : List (Event α)) : List (Event α) :=
  tr.filter Event.isOutput

/-- The sends and receives of a trace, in order. -/
def messages {α : Type} (tr : List (Event α)) : List (Event α) :=
  tr.filter Event.isMessage

/-- The partition, time and index of an output call. -/
def Event.stamp {α : Type} : Event α → Option (Fin 3 × ℚ × Int)
  | .output i _ t k _ => some (i, t, k)
  | _ => none

/-- The partition, time and index of each output call of a trace, in order. -/
def stamps {α : Type} (tr : List (Event α)) : List (Fin 3 × ℚ × Int) :=
  (outputs tr).filterMap Event.stamp

/-- The tag of a library call. -/
def MPICall.tag : MPICall → Int
  | .Isend _ _ tag => tag
  | .Recv _ _ tag => tag

/-- The tag of a send or receive. -/
def Event.tag {α : Type} : Event α → Option Int
  | .sent _ tag _ => some tag
  | .received _ tag _ => some tag
  | .output _ _ _ _ _ => none

/-- The tags of the sends and receives of a trace, in order. -/
def tags {α : Type} (tr : List (Event α)) : List Int :=
  (messages tr).filterMap Event.tag

/-- The output calls of one firing for partition `i` with `n` interior points: one call
for each index `1, ..., n`, with the value stored there and the time `t`. -/
def emitted {α : Type} (xpts : Fin 3 → Int) (m : Mem α) (t : ℚ) (i : Fin 3) (n : Int) :
    List (Event α) :=
  (indices 1 n.toNat).map fun k => Event.output i (m (Buf.state i) k) t k (xpts i)

/-- Whether the output test `t_eq > twrite` succeeds in the iteration that starts in `s`:
the time it compares is the one the clock lines of that iteration produce. -/
def crossed {α : Type} (cGlob : Globals) (ext : Externals α) (s : Local α) : Bool :=
  decide (s.twrite < (tick cGlob ext s).t_eq)

/-- The number of iterations with a successful output test among the first `n`
iterations of a loop with the given body. -/
def firings {α : Type} (cGlob : Globals) (ext : Externals α) (body : Local α → Local α)
    (s : Local α) (n : Nat) : Nat :=
  ((List.range n).filter fun j => crossed cGlob ext (body^[j] s)).length

/-- The number of iterations among the first `n` whose counter value satisfies the cadence
predicate, the counter starting at `t0`. -/
def cadenceCount (MODULA : Int → Bool) (t0 : Int) (n : Nat) : Nat :=
  ((List.range n).filter fun j => MODULA (t0 + (j : Int))).length

/-- The lines of the loop of `classicWrapper` that read or write `t_eq` and `tmine`, the
same in both branches: `while (t_eq < cGlob.tf)` with the body
`if (MODULA(tmine)) t_eq += cGlob.dt; tmine++;`, for an addition `add` and a comparison
`lt` on the type of times. The state is the pair of `t_eq` and `tmine`. -/
def clockLoop {T : Type} (add : T → T → T) (lt : T → T → Bool) (MODULA : Int → Bool)
    (dt tf : T) (fuel : Nat) (s : T × Int) : Option (T × Int) :=
  whileLoop (fun s => lt s.1 tf)
    (fun s => (if MODULA s.2 then add s.1 dt else s.1, s.2 + 1)) fuel s

/-! ## Double precision -/

/-- The number of binary digits of `n` (0 for 0), computed with `fuel` halvings. -/
def bitsAux : Nat → Nat → Nat
  | 0, _ => 0
  | fuel + 1, n => if n = 0 then 0 else bitsAux fuel (n / 2) + 1

/-- The number of binary digits of `n`. -/
def bits (n : Nat) : Nat := bitsAux n n

/-- The natural number `n` rounded to 53 binary digits, to nearest and ties to even: the
pair `(q, k)` stands for `q * 2^k`. -/
def round53 (n : Nat) : Nat × Nat :=
  if bits n ≤ 53 then (n, 0)
  else
    let k := bits n - 53
    let q := n / 2 ^ k
    let r := n % 2 ^ k
    let half := 2 ^ (k - 1)
    if half < r ∨ (r = half ∧ q % 2 = 1) then (q + 1, k) else (q, k)

/-- A finite value of type `double`: `m * 2^e` with `|m| <= 2^53`. The limits of the
exponent range (overflow, subnormal numbers) are not modelled. -/
structure Dbl where
  m : Int
  e : Int
  deriving DecidableEq

/-- The double nearest to `m * 2^e` (ties to even). -/
def Dbl.round (m e : Int) : Dbl :=
  let qk := round53 m.natAbs
  { m := if m < 0 then -(qk.1 : Int) else (qk.1 : Int), e := e + (qk.2 : Int) }

/-- The sum of two doubles as the machine computes it: the exact sum, rounded. -/
def Dbl.add (a b : Dbl) : Dbl :=
  let e := min a.e b.e
  Dbl.round (a.m * 2 ^ (a.e - e).toNat + b.m * 2 ^ (b.e - e).toNat) e

/-- The difference of two doubles as the machine computes it. -/
def Dbl.sub (a b : Dbl) : Dbl :=
  let e := min a.e b.e
  Dbl.round (a.m * 2 ^ (a.e - e).toNat - b.m * 2 ^ (b.e - e).toNat) e

/-- The comparison `a < b` of two doubles. -/
def Dbl.lt (a b : Dbl) : Bool :=
  let e := min a.e b.e
  decide (a.m * 2 ^ (a.e - e).toNat < b.m * 2 ^ (b.e - e).toNat)

/-- The double nearest to the positive ratio `p / q`: what a decimal constant such as
`0.581` (`p = 581`, `q = 1000`) denotes. The quotient is taken with more than 53 digits
and one more digit records whether the division left a remainder. -/
def Dbl.ofRatio (p q : Nat) : Dbl :=
  let s := 55 + bits q
  let n := p * 2 ^ s / q
  let sticky := if p * 2 ^ s % q = 0 then 0 else 1
  Dbl.round ((2 * n + sticky : Nat) : Int) (-(s : Int) - 1)

/-- The rational number a double stands for. -/
def Dbl.toRat (d : Dbl) : ℚ := (d.m : ℚ) * (2 : ℚ) ^ d.e

/-! ## Concrete configurations -/

/-- A process inside a chain, without accelerator: 8 interior points, timestep 0.01,
horizon 0.05, output interval 0.02. -/
def scenario : Globals :=
  { bCond := fun _ => true, hasGpu := false, xcpu := 8, xg := 4, gBks := 1, tpb := 4,
    dt := 1 / 100, tf := 5 / 100, freq := 2 / 100 }

/-- The same process without neighbours. -/
def alone : Globals :=
  { scenario with bCond := fun _ => false }

/-- The same process owning an accelerator. -/
def scenarioGpu : Globals :=
  { scenario with hasGpu := true }

/-- Integer cells, an update rule that adds the iteration counter to the cell, a kernel with
the same effect on cell 1, tags equal to their argument, a clock that advances on every
iteration and a threshold offset of a quarter timestep. -/
def plain : Externals Int :=
  { stepUpdate := fun s k ts => Function.update s k (s k + ts),
    classicStep := fun _ _ s ts => Function.update s 1 (s 1 + ts),
    TAGS := fun x => x, MODULA := fun _ => true, QUARTER := 1 / 4 }

/-- Ranks of a process with neighbours 0 and 2. -/
def middle : Fin 3 → Int := fun i => (i : Int)

/-- Memory with `100 * b + k` in cell `k` of `state[b]` and zeros on the device. -/
def ramp : Mem Int
  | Buf.state i, k => 100 * (i : Int) + k
  | Buf.dState, _ => 0

/-! ## Copies in flight -/

/-- How far an asynchronous copy has got: issued, source cell read, destination written. -/
inductive Stage (α : Type) where
  | issued
  | loaded (v : α)
  | stored

/-- Whether a copy has completed. -/
def Stage.isStored {α : Type} : Stage α → Bool
  | .stored => true
  | _ => false

/-- The two moments of copy number `i`: reading its source, writing its destination. -/
inductive CopyEvent where
  | load (i : Nat)
  | store (i : Nat)
  deriving DecidableEq

/-- Memory together with the stage of each issued copy. -/
structure Flight (α : Type) where
  mem : Mem α
  stage : Nat → Stage α

/-- One moment of one copy of the list `Ts`; `none` when it cannot happen now (no such
copy, a source read twice, a destination written before the source was read or twice). -/
def Flight.step {α : Type} (Ts : List Transfer) (s : Flight α) : CopyEvent → Option (Flight α)
  | .load i =>
      match Ts[i]?, s.stage i with
      | some T, .issued =>
          some { s with stage := Function.update s.stage i (Stage.loaded (s.mem T.src.1 T.src.2)) }
      | _, _ => none
  | .store i =>
      match Ts[i]?, s.stage i with
      | some T, .loaded v =>
          some { mem := s.mem.write T.dst.1 T.dst.2 v,
                 stage := Function.update s.stage i Stage.stored }
      | _, _ => none

/-- A sequence of moments, in the order in which they happen. -/
def Flight.run {α : Type} (Ts : List Transfer) :
    List CopyEvent → Flight α → Option (Flight α)
  | [], s => some s
  | e :: es, s => (s.step Ts e).bind (Flight.run Ts es)

/-- All copies issued, none started. -/
def Flight.start {α : Type} (m : Mem α) : Flight α :=
  { mem := m, stage := fun _ => Stage.issued }

/-- The memory after the four copies of an iteration, written out cell by cell. -/
def afterTransfers {α : Type} (xc xg : Int) (m : Mem α) : Mem α :=
  fun b k =>
    if b = Buf.dState ∧ k = 0 then m (Buf.state 0) xc
    else if b = Buf.dState ∧ k = xg + 1 then m (Buf.state 2) 1
    else if b = Buf.state 0 ∧ k = xc + 1 then m Buf.dState 1
    else if b = Buf.state 2 ∧ k = 0 then m Buf.dState xg
    else m b k

/-- A state of the copies `Ts` in flight that is consistent with the memory `m` they were
issued on: the destination of a copy not yet stored holds what it held in `m`, a value
read is the one the source held in `m`, the destination of a stored copy holds what its
source held in `m`, and a cell that is no destination holds what it held in `m`. -/
def Flight.agrees {α : Type} (Ts : List Transfer) (m : Mem α) (s : Flight α) : Prop :=
  (∀ (i : Nat) (T : Transfer), Ts[i]? = some T →
      (s.stage i = Stage.issued → s.mem T.dst.1 T.dst.2 = m T.dst.1 T.dst.2)
      ∧ (∀ v, s.stage i = Stage.loaded v →
          v = m T.src.1 T.src.2 ∧ s.mem T.dst.1 T.dst.2 = m T.dst.1 T.dst.2)
      ∧ (s.stage i = Stage.stored → s.mem T.dst.1 T.dst.2 = m T.src.1 T.src.2))
  ∧ ∀ b k, (∀ (i : Nat) (T : Transfer), Ts[i]? = some T → T.dst ≠ (b, k)) →
      s.mem b k = m b k

/-! ## Two neighbouring processes and the messages between them -/

/-- A message in flight. -/
structure Msg (α : Type) where
  src : Int
  dst : Int
  tag : Int
  payload : α

/-- Whether a message is the one a receive posted by rank `me` for `source` and `tag`
waits for. -/
def Msg.fits {α : Type} (me source tag : Int) (m : Msg α) : Bool :=
  decide (m.src = source) && decide (m.dst = me) && decide (m.tag = tag)

/-- A process inside an exchange function: its rank, the partition it was given and the
library calls it has still to make. -/
structure Proc (α : Type) where
  rank : Int
  state : Partition α
  pending : List MPICall

/-- The next call of a process. A send posts its message at once; a receive takes the
oldest fitting message, and cannot proceed (`none`) while there is none. -/
def Proc.step {α : Type} (p : Proc α) (net : List (Msg α)) :
    Option (Proc α × List (Msg α)) :=
  match p.pending with
  | [] => none
  | MPICall.Isend buf dest tag :: rest =>
      some ({ p with pending := rest },
            net ++ [{ src := p.rank, dst := dest, tag := tag, payload := p.state buf }])
  | MPICall.Recv buf source tag :: rest =>
      match net.find? (Msg.fits p.rank source tag) with
      | none => none
      | some m =>
          some ({ p with state := Function.update p.state buf m.payload, pending := rest },
                net.eraseP (Msg.fits p.rank source tag))

/-- Process `A` (the left one), process `B` (the right one) and the messages in flight. -/
structure Pair (α : Type) where
  A : Proc α
  B : Proc α
  net : List (Msg α)

/-- One call by `B` (`who = true`) or by `A` (`who = false`). -/
def Pair.step {α : Type} (s : Pair α) (who : Bool) : Option (Pair α) :=
  if who then
    (s.B.step s.net).map fun r => { s with B := r.1, net := r.2 }
  else
    (s.A.step s.net).map fun r => { s with A := r.1, net := r.2 }

/-- The calls made in the order of a schedule; `none` when the schedule asks a process
for a call it cannot make. -/
def Pair.run {α : Type} : List Bool → Pair α → Option (Pair α)
  | [], s => some s
  | w :: ws, s => (s.step w).bind (Pair.run ws)

/-- Both processes have returned from their exchange function. -/
def Pair.finished {α : Type} (s : Pair α) : Prop :=
  s.A.pending = [] ∧ s.B.pending = []

/-- The paired exchange: `A` enters `classicPassRight(stateA, idxend, t)`, its right
neighbour `B` enters `classicPassLeft(stateB, idxendB, t)`, no message is in flight. -/
def pairedExchange {α : Type} (cGlobA cGlobB : Globals) (ranksA ranksB : Fin 3 → Int)
    (TAGS : Int → Int) (idxend idxendB t : Int) (stateA stateB : Partition α) : Pair α :=
  { A := { rank := ranksA 1, state := stateA,
           pending := classicPassRight cGlobA ranksA TAGS idxend t },
    B := { rank := ranksB 1, state := stateB,
           pending := classicPassLeft cGlobB ranksB TAGS idxendB t },
    net := [] }

/-! ### The same exchange with payloads read late

A non-blocking send may read its buffer at any time up to the matching receive. The
other extreme to `Proc.step` is modelled here: a message carries the offset of the send
buffer, and the payload is what that cell of the sender holds when the receive completes. -/

/-- A message in flight that refers to the send buffer by its offset. -/
structure Letter where
  src : Int
  dst : Int
  tag : Int
  buf : Int
  deriving DecidableEq

/-- Whether a letter is the one a receive posted by rank `me` for `source` and `tag`
waits for. -/
def Letter.fits (me source tag : Int) (m : Letter) : Bool :=
  decide (m.src = source) && decide (m.dst = me) && decide (m.tag = tag)

/-- Two neighbours and the letters in flight between them. -/
structure LatePair (α : Type) where
  A : Proc α
  B : Proc α
  post : List Letter

/-- The next call of process `p` whose neighbour is `q`: a send posts a letter, a receive
takes the oldest fitting letter and stores what the cell it refers to holds in `q` now. -/
def Proc.stepLate {α : Type} (p q : Proc α) (post : List Letter) :
    Option (Proc α × List Letter) :=
  match p.pending with
  | [] => none
  | MPICall.Isend buf dest tag :: rest =>
      some ({ p with pending := rest },
            post ++ [{ src := p.rank, dst := dest, tag := tag, buf := buf }])
  | MPICall.Recv buf source tag :: rest =>
      match post.find? (Letter.fits p.rank source tag) with
      | none => none
      | some m =>
          some ({ p with state := Function.update p.state buf (q.state m.buf), pending := rest },
                post.eraseP (Letter.fits p.rank source tag))

/-- One call by `B` (`who = true`) or by `A` (`who = false`). -/
def LatePair.step {α : Type} (s : LatePair α) (who : Bool) : Option (LatePair α) :=
  if who then
    (s.B.stepLate s.A s.post).map fun r => { s with B := r.1, post := r.2 }
  else
    (s.A.stepLate s.B s.post).map fun r => { s with A := r.1, post := r.2 }

/-- The calls made in the order of a schedule. -/
def LatePair.run {α : Type} : List Bool → LatePair α → Option (LatePair α)
  | [], s => some s
  | w :: ws, s => (s.step w).bind (LatePair.run ws)

/-- The paired exchange of `pairedExchange`, with payloads read late. -/
def latePairedExchange {α : Type} (cGlobA cGlobB : Globals) (ranksA ranksB : Fin 3 → Int)
    (TAGS : Int → Int) (idxend idxendB t : Int) (stateA stateB : Partition α) : LatePair α :=
  { A := { rank := ranksA 1, state := stateA,
           pending := classicPassRight cGlobA ranksA TAGS idxend t },
    B := { rank := ranksB 1, state := stateB,
           pending := classicPassLeft cGlobB ranksB TAGS idxendB t },
    post := [] }

/-! ## The assignment loop of `detector` -/

/-- The locals of one process in the assignment loop: `nset`, `hasG`, the field
`kernelExecTimeoutEnabled` of the local `props`, the devices `cudaSetDevice` has accepted
from the process, and whether the process has left the loop through `break`. -/
structure DetLocal where
  nset : Int
  hasG : Bool
  props : Bool
  bound : List Int
  left : Bool

/-- The call `cudaGetDeviceProperties(&props, dev)` on a machine with devices `0 .. nGo-1`,
as far as the field `kernelExecTimeoutEnabled` goes: for an existing device the field is
that of the device; for any other index the call fails and leaves `props` as it was. -/
def cudaGetDeviceProperties (nGo : Int) (kernelExecTimeoutEnabled : Int → Bool) (dev : Int)
    (props : Bool) : Bool :=
  if 0 ≤ dev ∧ dev < nGo then kernelExecTimeoutEnabled dev else props

/-- The call `cudaSetDevice(dev)`: an existing device is recorded as bound to the process;
for any other index the call fails and binds nothing. -/
def cudaSetDevice (nGo : Int) (dev : Int) (bound : List Int) : List Int :=
  if 0 ≤ dev ∧ dev < nGo then bound ++ [dev] else bound

/-- The locals of the process of machine rank `r` when the assignment loop starts
(lines 86-108): `props` is not initialised (`uninit r` stands for what it happens to
hold) and machine rank 0 has passed it to `cudaGetDeviceProperties` for the devices
`0 .. nGo-1` in turn. -/
def detectorInit (nGo : Int) (kernelExecTimeoutEnabled : Int → Bool) (uninit : Int → Bool)
    (r : Int) : DetLocal :=
  { nset := 0, hasG := false, bound := [], left := false,
    props :=
      if r = 0 then
        forRange 0 nGo (cudaGetDeviceProperties nGo kernelExecTimeoutEnabled) (uninit r)
      else uninit r }

/-- The body of the assignment loop on the process of machine rank `r` in round `i`, up
to the broadcast: the `break` test, then for `i == machineRank` the choice `dev=i-1`
(the branch compiled under `PCIBUS_BUG`), `cudaGetDeviceProperties(&props, dev)`, under
`!props.kernelExecTimeoutEnabled` the calls `cudaSetDevice(dev)` and `hasG = true`, and
`nset++`. -/
def assignBody (nGo : Int) (kernelExecTimeoutEnabled : Int → Bool) (i r : Int) (s : DetLocal) :
    DetLocal :=
  if s.left then s
  else if nGo - s.nset = 0 then { s with left := true }
  else if i = r then
    let dev := i - 1
    let s := { s with props := cudaGetDeviceProperties nGo kernelExecTimeoutEnabled dev s.props }
    let s :=
      if !s.props then { s with bound := cudaSetDevice nGo dev s.bound, hasG := true }
      else s
    { s with nset := s.nset + 1 }
  else s

/-- Round `i` of the assignment loop on every process of the machine: the body, then
`MPI_Bcast(&nset, 1, MPI_INT, i, machineComm)` among the processes still in the loop. -/
def assignRound (nGo : Int) (kernelExecTimeoutEnabled : Int → Bool) (i : Int)
    (ps : Int → DetLocal) : Int → DetLocal :=
  fun r =>
    let s := assignBody nGo kernelExecTimeoutEnabled i r (ps r)
    let root := assignBody nGo kernelExecTimeoutEnabled i i (ps i)
    if s.left then s else { s with nset := root.nset }

/-- The assignment loop `for (int i = startpos; i<machineSize; i++)` of `detector` on a
machine with `nGo` devices, every process starting from `nset = 0`, `hasG = false`. -/
def detector (nGo : Int) (kernelExecTimeoutEnabled : Int → Bool) (uninit : Int → Bool)
    (machineSize startpos : Int) : Int → DetLocal :=
  forRange startpos machineSize (assignRound nGo kernelExecTimeoutEnabled)
    (detectorInit nGo kernelExecTimeoutEnabled uninit)

/-- The machine ranks that end up owning an accelerator. -/
def owners (nGo : Int) (kernelExecTimeoutEnabled : Int → Bool) (uninit : Int → Bool)
    (machineSize startpos : Int) : List Int :=
  (indices 0 machineSize.toNat).filter
    (fun r => (detector nGo kernelExecTimeoutEnabled uninit machineSize startpos r).hasG)

/-- The machine ranks from `startpos` on. -/
def eligible (machineSize startpos : Int) : List Int :=
  (indices 0 machineSize.toNat).filter (fun r => decide (startpos ≤ r))

/-- The devices without execution timeout among devices `0 .. nGo-1`. -/
def suitable (nGo : Int) (kernelExecTimeoutEnabled : Int → Bool) : List Int :=
  (indices 0 nGo.toNat).filter (fun d => !kernelExecTimeoutEnabled d)

/-! # Properties -/

/-! ## Counting loops -/

theorem indices_zero (lo : Int) : indices lo 0 = [] := by
  simp [indices]

theorem indices_succ (lo : Int) (n : Nat) : indices lo (n + 1) = lo :: indices (lo + 1) n := by
  simp only [indices, List.range_succ_eq_map, List.map_cons, List.map_map]
  refine congrArg₂ _ (by simp) (List.map_congr_left ?_)
  intro i _
  simp only [Function.comp, Nat.succ_eq_add_one, Nat.cast_add, Nat.cast_one]
  ring

theorem indices_length (lo : Int) (n : Nat) : (indices lo n).length = n := by
  simp [indices]

theorem mem_indices {lo : Int} {n : Nat} {k : Int} :
    k ∈ indices lo n ↔ lo ≤ k ∧ k < lo + n := by
  simp only [indices, List.mem_map, List.mem_range]
  constructor
  · rintro ⟨i, hi, rfl⟩
    omega
  · intro h
    exact ⟨(k - lo).toNat, by omega, by omega⟩

theorem indices_get? (lo : Int) (n i : Nat) (h : i < n) :
    (indices lo n).get? i = some (lo + i) := by
  simp [indices, List.getElem?_range h]

theorem forLoop_eq_foldl {σ : Type} (body : Int → σ → σ) (hi : Int) :
    ∀ (fuel : Nat) (k : Int) (s : σ), (hi - k).toNat ≤ fuel →
      forLoop body hi fuel k s = (indices k (hi - k).toNat).foldl (fun s j => body j s) s := by
  intro fuel
  induction fuel with
  | zero =>
      intro k s h
      have h0 : (hi - k).toNat = 0 := by omega
      simp [forLoop, h0, indices_zero]
  | succ fuel ih =>
      intro k s h
      by_cases hk : k < hi
      · have h1 : (hi - k).toNat = (hi - (k + 1)).toNat + 1 := by omega
        rw [forLoop, if_pos hk, ih (k + 1) (body k s) (by omega), h1, indices_succ]
        rfl
      · have h0 : (hi - k).toNat = 0 := by omega
        rw [forLoop, if_neg hk, h0, indices_zero]
        rfl

theorem forRange_eq_foldl {σ : Type} (lo hi : Int) (body : Int → σ → σ) (s : σ) :
    forRange lo hi body s = (indices lo (hi - lo).toNat).foldl (fun s j => body j s) s :=
  forLoop_eq_foldl body hi _ lo s le_rfl

/-! ## The host step executor -/

theorem classicStepCPU_eq_foldl {σ : Type} (stepUpdate : σ → Int → Int → σ) (state : σ)
    (numx tstep : Int) :
    classicStepCPU stepUpdate state numx tstep
      = (indices 1 (numx - 1).toNat).foldl (fun s k => stepUpdate s k tstep) state :=
  forRange_eq_foldl 1 numx _ state

theorem foldl_logged {σ : Type} (stepUpdate : σ → Int → Int → σ) (tstep : Int)
    (l : List Int) :
    ∀ (s : σ) (log : List Int),
      l.foldl (fun s k => logged stepUpdate s k tstep) (s, log)
        = (l.foldl (fun s k => stepUpdate s k tstep) s, log ++ l) := by
  induction l with
  | nil => intro s log; simp
  | cons k l ih =>
      intro s log
      rw [List.foldl_cons]
      show List.foldl _ (stepUpdate s k tstep, log ++ [k]) l = _
      rw [ih]
      simp

theorem foldl_frame {α : Type} (stepUpdate : Partition α → Int → Int → Partition α)
    (hlocal : ∀ s k t j, j ≠ k → stepUpdate s k t j = s j) (tstep j : Int) (l : List Int)
    (hj : j ∉ l) :
    ∀ s : Partition α, l.foldl (fun s k => stepUpdate s k tstep) s j = s j := by
  induction l with
  | nil => intro s; rfl
  | cons k l ih =>
      intro s
      have hk : j ≠ k := fun h => hj (by simp [h])
      have hl : j ∉ l := fun h => hj (by simp [h])
      rw [List.foldl_cons, ih hl, hlocal s k tstep j hk]

/-- C3. For a partition of length `L >= 2`, `classicStepCPU` called with `numx = L-1`
applies the update rule at the indices `1, 2, ..., L-2` in this order and at no other:
its result is the left-to-right fold of the rule over that list, the rule instrumented
with a call log is invoked `L-2` times, at exactly these indices (the `i`-th call is at
index `1+i`), never at `0` or `L-1`, and for a rule that writes only its own index the two
ghost cells keep their values. -/
theorem classicStepCPU_interior (L : Nat) (hL : 2 ≤ L) (tstep : Int) :
    (∀ (σ : Type) (stepUpdate : σ → Int → Int → σ) (state : σ),
        classicStepCPU stepUpdate state ((L : Int) - 1) tstep
          = (indices 1 (L - 2)).foldl (fun s k => stepUpdate s k tstep) state
        ∧ classicStepCPU (logged stepUpdate) (state, []) ((L : Int) - 1) tstep
          = (classicStepCPU stepUpdate state ((L : Int) - 1) tstep, indices 1 (L - 2)))
    ∧ (indices 1 (L - 2)).length = L - 2
    ∧ (∀ i : Nat, i < L - 2 → (indices 1 (L - 2)).get? i = some (1 + (i : Int)))
    ∧ (∀ k ∈ indices 1 (L - 2), 1 ≤ k ∧ k ≤ (L : Int) - 2)
    ∧ (0 : Int) ∉ indices 1 (L - 2) ∧ ((L : Int) - 1) ∉ indices 1 (L - 2)
    ∧ (∀ (α : Type) (stepUpdate : Partition α → Int → Int → Partition α)
        (state : Partition α),
        (∀ s k t j, j ≠ k → stepUpdate s k t j = s j) →
        classicStepCPU stepUpdate state ((L : Int) - 1) tstep 0 = state 0
        ∧ classicStepCPU stepUpdate state ((L : Int) - 1) tstep ((L : Int) - 1)
            = state ((L : Int) - 1)) := by
  have hn : ((L : Int) - 1 - 1).toNat = L - 2 := by omega
  have h0 : (0 : Int) ∉ indices 1 (L - 2) := by
    rw [mem_indices]; omega
  have hlast : ((L : Int) - 1) ∉ indices 1 (L - 2) := by
    rw [mem_indices]; omega
  refine ⟨?_, indices_length _ _, fun i hi => indices_get? 1 _ i hi, ?_, h0, hlast, ?_⟩
  · intro σ stepUpdate state
    have h1 := classicStepCPU_eq_foldl stepUpdate state ((L : Int) - 1) tstep
    rw [hn] at h1
    refine ⟨h1, ?_⟩
    rw [classicStepCPU_eq_foldl, hn, foldl_logged, ← h1]
    simp
  · intro k hk
    rw [mem_indices] at hk
    omega
  · intro α stepUpdate state hlocal
    rw [classicStepCPU_eq_foldl, hn]
    exact ⟨foldl_frame stepUpdate hlocal tstep 0 _ h0 state,
      foldl_frame stepUpdate hlocal tstep _ _ hlast state⟩

/-- C3, at a partition of length 5: the rule is applied at 1, 2, 3. -/
theorem classicStepCPU_interior_witness :
    (indices 1 (5 - 2)).length = 5 - 2 ∧ (0 : Int) ∉ indices 1 (5 - 2) :=
  ⟨(classicStepCPU_interior 5 (by decide) 0).2.1,
    (classicStepCPU_interior 5 (by decide) 0).2.2.2.2.1⟩

/-! ## What each part of an iteration leaves alone -/

section Frames

variable {α : Type} (cGlob : Globals) (ranks : Fin 3 → Int) (ext : Externals α)
  (recvd : Nat → α) (xpts alen : Fin 3 → Int)

theorem outputs_append (tr tr' : List (Event α)) :
    outputs (tr ++ tr') = outputs tr ++ outputs tr' := by
  simp [outputs]

theorem messages_append (tr tr' : List (Event α)) :
    messages (tr ++ tr') = messages tr ++ messages tr' := by
  simp [messages]

theorem mpiCalls_clock (b : Buf) (calls : List MPICall) :
    ∀ s : Local α, (mpiCalls recvd b s calls).t_eq = s.t_eq
      ∧ (mpiCalls recvd b s calls).tmine = s.tmine
      ∧ (mpiCalls recvd b s calls).twrite = s.twrite
      ∧ outputs (mpiCalls recvd b s calls).trace = outputs s.trace := by
  induction calls with
  | nil => intro s; exact ⟨rfl, rfl, rfl, rfl⟩
  | cons c calls ih =>
      intro s
      have h := ih (mpiCall recvd b s c)
      simp only [mpiCalls, List.foldl_cons] at h ⊢
      cases c <;> simpa [mpiCall, outputs, Event.isOutput] using h

theorem hostAdvance_clock (s : Local α) :
    (hostAdvance cGlob ranks ext recvd s).t_eq = (tick cGlob ext s).t_eq
      ∧ (hostAdvance cGlob ranks ext recvd s).tmine = s.tmine + 1
      ∧ (hostAdvance cGlob ranks ext recvd s).twrite = s.twrite
      ∧ outputs (hostAdvance cGlob ranks ext recvd s).trace = outputs s.trace := by
  simp only [hostAdvance]
  refine ⟨?_, ?_, ?_, ?_⟩ <;>
    simp [mpiCalls_clock, tick, stepCPUOn]

theorem gpuAdvance_clock (s : Local α) :
    (gpuAdvance cGlob ranks ext recvd s).t_eq = (tick cGlob ext s).t_eq
      ∧ (gpuAdvance cGlob ranks ext recvd s).tmine = s.tmine + 1
      ∧ (gpuAdvance cGlob ranks ext recvd s).twrite = s.twrite
      ∧ outputs (gpuAdvance cGlob ranks ext recvd s).trace = outputs s.trace := by
  simp only [gpuAdvance]
  refine ⟨?_, ?_, ?_, ?_⟩ <;>
    simp [mpiCalls_clock, tick, stepCPUOn, launch]

theorem foldl_solutionOutput (i : Fin 3) (l : List Int) :
    ∀ s : Local α, l.foldl (fun s j => solutionOutput xpts i j s) s
      = { s with trace := s.trace ++
            l.map fun k => Event.output i (s.mem (Buf.state i) k) s.t_eq k (xpts i) } := by
  induction l with
  | nil => intro s; simp
  | cons k l ih => intro s; rw [List.foldl_cons, ih]; simp [solutionOutput]

theorem outputPartition_eq (n : Int) (s : Local α) (i : Fin 3) :
    outputPartition xpts n s i
      = { s with trace := s.trace ++ emitted xpts s.mem s.t_eq i n } := by
  have hn : (n + 1 - 1).toNat = n.toNat := by simp
  rw [outputPartition, forRange_eq_foldl, hn, foldl_solutionOutput]
  rfl

theorem outputs_emitted (m : Mem α) (t : ℚ) (i : Fin 3) (n : Int) :
    outputs (emitted xpts m t i n) = emitted xpts m t i n := by
  simp only [outputs, emitted, List.filter_eq_self, List.mem_map]
  rintro e ⟨k, _, rfl⟩
  rfl

end Frames

/-! ## The simulation clock -/

section Clock

variable {α : Type} (cGlob : Globals) (ranks : Fin 3 → Int) (ext : Externals α)
  (recvd : Nat → α) (xpts alen : Fin 3 → Int)

theorem tick_t_eq (s : Local α) :
    (tick cGlob ext s).t_eq = s.t_eq + (if ext.MODULA s.tmine then cGlob.dt else 0) := by
  by_cases h : ext.MODULA s.tmine = true <;> simp [tick, h]

theorem hostOutput_clock (s : Local α) :
    (hostOutput cGlob xpts s).t_eq = s.t_eq ∧ (hostOutput cGlob xpts s).tmine = s.tmine := by
  unfold hostOutput
  split
  · simp [outputPartition_eq]
  · exact ⟨rfl, rfl⟩

theorem gpuOutput_clock (s : Local α) :
    (gpuOutput cGlob xpts alen s).t_eq = s.t_eq
      ∧ (gpuOutput cGlob xpts alen s).tmine = s.tmine := by
  unfold gpuOutput
  simp only
  split
  · simp [outputPartition_eq]
  · exact ⟨rfl, rfl⟩

theorem hostBody_clock (s : Local α) :
    (hostBody cGlob ranks ext recvd xpts s).tmine = s.tmine + 1
      ∧ (hostBody cGlob ranks ext recvd xpts s).t_eq
          = s.t_eq + (if ext.MODULA s.tmine then cGlob.dt else 0) := by
  unfold hostBody
  rw [(hostOutput_clock cGlob xpts _).1, (hostOutput_clock cGlob xpts _).2,
    (hostAdvance_clock cGlob ranks ext recvd s).1,
    (hostAdvance_clock cGlob ranks ext recvd s).2.1, tick_t_eq]
  exact ⟨rfl, rfl⟩

theorem gpuBody_clock (s : Local α) :
    (gpuBody cGlob ranks ext recvd xpts alen s).tmine = s.tmine + 1
      ∧ (gpuBody cGlob ranks ext recvd xpts alen s).t_eq
          = s.t_eq + (if ext.MODULA s.tmine then cGlob.dt else 0) := by
  unfold gpuBody
  rw [(gpuOutput_clock cGlob xpts alen _).1, (gpuOutput_clock cGlob xpts alen _).2,
    (gpuAdvance_clock cGlob ranks ext recvd s).1,
    (gpuAdvance_clock cGlob ranks ext recvd s).2.1, tick_t_eq]
  exact ⟨rfl, rfl⟩

theorem cadenceCount_succ (MODULA : Int → Bool) (t0 : Int) (n : Nat) :
    cadenceCount MODULA t0 (n + 1)
      = cadenceCount MODULA t0 n + (if MODULA (t0 + (n : Int)) then 1 else 0) := by
  simp only [cadenceCount, List.range_succ, List.filter_append, List.length_append]
  by_cases h : MODULA (t0 + (n : Int)) = true <;> simp [h]

/-- The clock after `n` iterations of any body that obeys the one-iteration law. -/
theorem iterate_clock (dt : ℚ) (MODULA : Int → Bool) (body : Local α → Local α)
    (hbody : ∀ s, (body s).tmine = s.tmine + 1
      ∧ (body s).t_eq = s.t_eq + (if MODULA s.tmine then dt else 0))
    (s : Local α) (n : Nat) :
    (body^[n] s).tmine = s.tmine + (n : Int)
      ∧ (body^[n] s).t_eq = s.t_eq + dt * (cadenceCount MODULA s.tmine n : ℚ) := by
  induction n with
  | zero => simp [cadenceCount]
  | succ n ih =>
      rw [Function.iterate_succ_apply', (hbody _).1, (hbody _).2, ih.1, ih.2,
        cadenceCount_succ]
      refine ⟨by push_cast; ring, ?_⟩
      by_cases h : MODULA (s.tmine + (n : Int)) = true
      · simp [h]; ring
      · simp [h]

theorem iterate_clock_mono (dt : ℚ) (hdt : 0 ≤ dt) (MODULA : Int → Bool)
    (body : Local α → Local α)
    (hbody : ∀ s, (body s).tmine = s.tmine + 1
      ∧ (body s).t_eq = s.t_eq + (if MODULA s.tmine then dt else 0))
    (s : Local α) (m n : Nat) (hmn : m ≤ n) :
    (body^[m] s).t_eq ≤ (body^[n] s).t_eq := by
  induction n, hmn using Nat.le_induction with
  | base => exact le_rfl
  | succ n _ ih =>
      rw [Function.iterate_succ_apply', (hbody _).2]
      refine ih.trans ?_
      by_cases h : MODULA (body^[n] s).tmine = true <;> simp [h, hdt]

/-- C4. In both branches of `classicWrapper` one loop iteration raises the counter by
exactly 1 and the accumulated time by `dt` when `MODULA` holds of the counter value the
iteration starts with, by 0 otherwise; so after `n` iterations the counter has grown by
`n` and the time by `dt` times the number of iterations whose counter value satisfied
`MODULA` (from the initial time 0: the time is that product), and for `dt >= 0` the time
never decreases from one iteration count to a later one. -/
theorem clock_law :
    (∀ s : Local α,
        (hostBody cGlob ranks ext recvd xpts s).tmine = s.tmine + 1
        ∧ (hostBody cGlob ranks ext recvd xpts s).t_eq
            = s.t_eq + (if ext.MODULA s.tmine then cGlob.dt else 0)
        ∧ (gpuBody cGlob ranks ext recvd xpts alen s).tmine = s.tmine + 1
        ∧ (gpuBody cGlob ranks ext recvd xpts alen s).t_eq
            = s.t_eq + (if ext.MODULA s.tmine then cGlob.dt else 0))
    ∧ (∀ (s : Local α) (n : Nat),
        ((hostBody cGlob ranks ext recvd xpts)^[n] s).tmine = s.tmine + (n : Int)
        ∧ ((hostBody cGlob ranks ext recvd xpts)^[n] s).t_eq
            = s.t_eq + cGlob.dt * (cadenceCount ext.MODULA s.tmine n : ℚ)
        ∧ ((gpuBody cGlob ranks ext recvd xpts alen)^[n] s).tmine = s.tmine + (n : Int)
        ∧ ((gpuBody cGlob ranks ext recvd xpts alen)^[n] s).t_eq
            = s.t_eq + cGlob.dt * (cadenceCount ext.MODULA s.tmine n : ℚ))
    ∧ (∀ (mem : Mem α) (t0 : Int) (n : Nat),
        ((hostBody cGlob ranks ext recvd xpts)^[n] (initLocal cGlob ext mem t0)).t_eq
            = cGlob.dt * (cadenceCount ext.MODULA t0 n : ℚ)
        ∧ ((gpuBody cGlob ranks ext recvd xpts alen)^[n] (initLocal cGlob ext mem t0)).t_eq
            = cGlob.dt * (cadenceCount ext.MODULA t0 n : ℚ))
    ∧ (0 ≤ cGlob.dt → ∀ (s : Local α) (m n : Nat), m ≤ n →
        ((hostBody cGlob ranks ext recvd xpts)^[m] s).t_eq
            ≤ ((hostBody cGlob ranks ext recvd xpts)^[n] s).t_eq
        ∧ ((gpuBody cGlob ranks ext recvd xpts alen)^[m] s).t_eq
            ≤ ((gpuBody cGlob ranks ext recvd xpts alen)^[n] s).t_eq) := by
  have hh := hostBody_clock cGlob ranks ext recvd xpts
  have hg := gpuBody_clock cGlob ranks ext recvd xpts alen
  refine ⟨fun s => ⟨(hh s).1, (hh s).2, (hg s).1, (hg s).2⟩, ?_, ?_, ?_⟩
  · intro s n
    have h1 := iterate_clock cGlob.dt ext.MODULA _ hh s n
    have h2 := iterate_clock cGlob.dt ext.MODULA _ hg s n
    exact ⟨h1.1, h1.2, h2.1, h2.2⟩
  · intro mem t0 n
    have h1 := iterate_clock cGlob.dt ext.MODULA _ hh (initLocal cGlob ext mem t0) n
    have h2 := iterate_clock cGlob.dt ext.MODULA _ hg (initLocal cGlob ext mem t0) n
    constructor
    · rw [h1.2]; simp [initLocal]
    · rw [h2.2]; simp [initLocal]
  · intro hdt s m n hmn
    exact ⟨iterate_clock_mono cGlob.dt hdt ext.MODULA _ hh s m n hmn,
      iterate_clock_mono cGlob.dt hdt ext.MODULA _ hg s m n hmn⟩

/-- C4 on the scenario: the time after one iteration is not above the time after two. -/
theorem clock_law_witness :
    ((hostBody scenario middle plain (fun _ => 0) (fun _ => 0))^[1]
        (initLocal scenario plain ramp 0)).t_eq
      ≤ ((hostBody scenario middle plain (fun _ => 0) (fun _ => 0))^[2]
        (initLocal scenario plain ramp 0)).t_eq :=
  ((clock_law scenario middle plain (fun _ => 0) (fun _ => 0) (fun _ => 0)).2.2.2
    (by norm_num [scenario]) (initLocal scenario plain ramp 0) 1 2 (by decide)).1

end Clock

/-! ## Output -/

section Output

variable {α : Type} (cGlob : Globals) (ranks : Fin 3 → Int) (ext : Externals α)
  (recvd : Nat → α) (xpts alen : Fin 3 → Int)

theorem indices_nodup (lo : Int) (n : Nat) : (indices lo n).Nodup := by
  unfold indices
  refine List.Nodup.map ?_ (List.nodup_range n)
  intro a b h
  simpa using h

theorem hostOutput_eq (s : Local α) :
    hostOutput cGlob xpts s
      = if s.twrite < s.t_eq then
          { s with trace := s.trace ++ emitted xpts s.mem s.t_eq 0 cGlob.xcpu,
                   twrite := s.twrite + cGlob.freq }
        else s := by
  unfold hostOutput
  by_cases h : s.twrite < s.t_eq
  · simp [h, outputPartition_eq]
  · simp [h]

theorem gpuOutput_eq (s : Local α) :
    gpuOutput cGlob xpts alen s
      = if s.twrite < s.t_eq then
          { s with mem := s.mem.copy (Buf.state 1) Buf.dState (cGlob.xg + 2),
                   trace := s.trace ++
                     (emitted xpts (s.mem.copy (Buf.state 1) Buf.dState (cGlob.xg + 2)) s.t_eq 0
                        (alen 0)
                      ++ emitted xpts (s.mem.copy (Buf.state 1) Buf.dState (cGlob.xg + 2)) s.t_eq 1
                        (alen 1)
                      ++ emitted xpts (s.mem.copy (Buf.state 1) Buf.dState (cGlob.xg + 2)) s.t_eq 2
                        (alen 2)),
                   twrite := s.twrite + cGlob.freq }
        else s := by
  unfold gpuOutput
  by_cases h : s.twrite < s.t_eq
  · simp [h, outputPartition_eq]
  · simp [h]

theorem crossed_host (s : Local α) :
    crossed cGlob ext s = true ↔
      (hostAdvance cGlob ranks ext recvd s).twrite < (hostAdvance cGlob ranks ext recvd s).t_eq := by
  rw [(hostAdvance_clock cGlob ranks ext recvd s).1, (hostAdvance_clock cGlob ranks ext recvd s).2.2.1]
  simp [crossed]

/-- One iteration of the branch without accelerator, as far as output is concerned. -/
theorem hostBody_output (s : Local α) :
    (crossed cGlob ext s = true →
        (hostBody cGlob ranks ext recvd xpts s).twrite = s.twrite + cGlob.freq
        ∧ outputs (hostBody cGlob ranks ext recvd xpts s).trace
            = outputs s.trace ++
              emitted xpts (hostBody cGlob ranks ext recvd xpts s).mem
                (hostBody cGlob ranks ext recvd xpts s).t_eq 0 cGlob.xcpu)
    ∧ (crossed cGlob ext s = false →
        (hostBody cGlob ranks ext recvd xpts s).twrite = s.twrite
        ∧ outputs (hostBody cGlob ranks ext recvd xpts s).trace = outputs s.trace) := by
  have hc := crossed_host cGlob ranks ext recvd s
  have ha := hostAdvance_clock cGlob ranks ext recvd s
  constructor
  · intro h
    have h' := hc.1 h
    rw [hostBody, hostOutput_eq, if_pos h']
    simp only [outputs_append, outputs_emitted, ha.2.2.1, ha.2.2.2, List.append_assoc,
      and_self]
  · intro h
    have h' : ¬ _ := fun hh => by simpa [h] using hc.2 hh
    rw [hostBody, hostOutput_eq, if_neg h']
    simp only [ha.2.2.1, ha.2.2.2, and_self]

theorem firings_succ (body : Local α → Local α) (s : Local α) (n : Nat) :
    firings cGlob ext body s (n + 1)
      = firings cGlob ext body s n + (if crossed cGlob ext (body^[n] s) then 1 else 0) := by
  simp only [firings, List.range_succ, List.filter_append, List.length_append]
  by_cases h : crossed cGlob ext (body^[n] s) = true <;> simp [h]

end Output

section Cadence

variable {α : Type} (cGlob : Globals) (ranks : Fin 3 → Int) (ext : Externals α)
  (recvd : Nat → α) (xpts alen : Fin 3 → Int)

end Cadence

/-! ## Termination of the pipeline loop -/

section Termination

variable {α : Type} (cGlob : Globals) (ranks : Fin 3 → Int) (ext : Externals α)
  (recvd : Nat → α) (xpts alen : Fin 3 → Int)

theorem whileLoop_iterate {σ : Type} (cond : σ → Bool) (body : σ → σ) :
    ∀ (n fuel : Nat) (s : σ), n ≤ fuel → (∀ j, j < n → cond (body^[j] s) = true) →
      cond (body^[n] s) = false → whileLoop cond body fuel s = some (body^[n] s) := by
  intro n
  induction n with
  | zero =>
      intro fuel s _ _ hstop
      have hs : cond s = false := hstop
      cases fuel <;> simp [whileLoop, hs]
  | succ n ih =>
      intro fuel s hfuel hrun hstop
      obtain ⟨fuel, rfl⟩ : ∃ f, fuel = f + 1 := ⟨fuel - 1, by omega⟩
      have h0 : cond s = true := hrun 0 (Nat.succ_pos n)
      rw [whileLoop, if_pos h0, Function.iterate_succ_apply]
      refine ih fuel (body s) (by omega) (fun j hj => ?_) ?_
      · rw [← Function.iterate_succ_apply]
        exact hrun (j + 1) (by omega)
      · rw [← Function.iterate_succ_apply]
        exact hstop

theorem cadenceCount_always (MODULA : Int → Bool) (hM : ∀ t, MODULA t = true) (t0 : Int)
    (n : Nat) : cadenceCount MODULA t0 n = n := by
  induction n with
  | zero => simp [cadenceCount]
  | succ n ih => rw [cadenceCount_succ, ih, hM]; simp

/-- With a clock that advances by `dt` in every iteration, a loop started at time 0 is at
time `n * dt` after `n` iterations. -/
theorem iterate_time (body : Local α → Local α)
    (hbody : ∀ s, (body s).tmine = s.tmine + 1
      ∧ (body s).t_eq = s.t_eq + (if ext.MODULA s.tmine then cGlob.dt else 0))
    (hM : ∀ t, ext.MODULA t = true) (s : Local α) (hs : s.t_eq = 0) (n : Nat) :
    (body^[n] s).t_eq = (n : ℚ) * cGlob.dt ∧ (body^[n] s).tmine = s.tmine + (n : Int) := by
  have h := iterate_clock cGlob.dt ext.MODULA body hbody s n
  rw [cadenceCount_always ext.MODULA hM] at h
  exact ⟨by rw [h.2, hs]; ring, h.1⟩

/-- C5, amended. Taking arithmetic exactly and every receive being matched: with `dt > 0`
and a cadence that holds of every counter value, the loop of `classicWrapper` ends in
either branch. Iteration `j` starts
at time `j * dt`, and there is a number `N` such that each iteration `j < N` starts below
`tf` while `N * dt` is not below `tf`; with `N` or more units of fuel the wrapper returns
after exactly these `N` iterations: the returned time is `N * dt`, at least `tf` and, when
`tf > 0`, less than `tf + dt`; the counter written back is the initial one plus `N`; trace
and buffers are those of `N` iterations of the branch. When `tf <= 0`, `N = 0`: no
iteration, returned time 0, counter unchanged. -/
theorem classicWrapper_terminates (mem : Mem α) (tstep : Int) (hdt : 0 < cGlob.dt)
    (hM : ∀ t, ext.MODULA t = true) :
    ∃ N : Nat,
      (∀ j : Nat, j < N → (j : ℚ) * cGlob.dt < cGlob.tf)
      ∧ cGlob.tf ≤ (N : ℚ) * cGlob.dt
      ∧ (∀ j : Nat,
          ((hostBody cGlob ranks ext recvd xpts)^[j] (initLocal cGlob ext mem tstep)).t_eq
            = (j : ℚ) * cGlob.dt
          ∧ ((gpuBody cGlob ranks ext recvd xpts alen)^[j]
              { initLocal cGlob ext mem tstep with
                mem := mem.copy Buf.dState (Buf.state 1) (cGlob.xg + 2) }).t_eq
            = (j : ℚ) * cGlob.dt)
      ∧ ∀ fuel : Nat, N ≤ fuel →
          ∃ r : Returned α,
            classicWrapper fuel cGlob ranks ext recvd mem xpts alen tstep = some r
            ∧ r.t_eq = (N : ℚ) * cGlob.dt
            ∧ r.tstep = tstep + (N : Int)
            ∧ cGlob.tf ≤ r.t_eq
            ∧ (0 < cGlob.tf → r.t_eq - cGlob.dt < cGlob.tf)
            ∧ (cGlob.tf ≤ 0 → N = 0 ∧ r.t_eq = 0 ∧ r.tstep = tstep)
            ∧ (cGlob.hasGpu = false →
                r.trace = ((hostBody cGlob ranks ext recvd xpts)^[N]
                    (initLocal cGlob ext mem tstep)).trace
                ∧ r.mem = ((hostBody cGlob ranks ext recvd xpts)^[N]
                    (initLocal cGlob ext mem tstep)).mem)
            ∧ (cGlob.hasGpu = true →
                r.trace = ((gpuBody cGlob ranks ext recvd xpts alen)^[N]
                    { initLocal cGlob ext mem tstep with
                      mem := mem.copy Buf.dState (Buf.state 1) (cGlob.xg + 2) }).trace
                ∧ r.mem = (((gpuBody cGlob ranks ext recvd xpts alen)^[N]
                    { initLocal cGlob ext mem tstep with
                      mem := mem.copy Buf.dState (Buf.state 1) (cGlob.xg + 2) }).mem).copy
                    (Buf.state 1) Buf.dState (cGlob.xg + 2)) := by
  have hbh := hostBody_clock cGlob ranks ext recvd xpts
  have hbg := gpuBody_clock cGlob ranks ext recvd xpts alen
  have hbelow : ∀ j : Nat, j < ⌈cGlob.tf / cGlob.dt⌉₊ → (j : ℚ) * cGlob.dt < cGlob.tf := by
    intro j hj
    exact (lt_div_iff₀ hdt).1 (Nat.lt_ceil.1 hj)
  have hreach : cGlob.tf ≤ (⌈cGlob.tf / cGlob.dt⌉₊ : ℚ) * cGlob.dt :=
    (div_le_iff₀ hdt).1 (Nat.le_ceil _)
  have hlast : 0 < cGlob.tf →
      (⌈cGlob.tf / cGlob.dt⌉₊ : ℚ) * cGlob.dt - cGlob.dt < cGlob.tf := by
    intro htf
    have hpos : 0 < ⌈cGlob.tf / cGlob.dt⌉₊ := Nat.ceil_pos.2 (div_pos htf hdt)
    have h := hbelow (⌈cGlob.tf / cGlob.dt⌉₊ - 1) (by omega)
    have hc : ((⌈cGlob.tf / cGlob.dt⌉₊ - 1 : Nat) : ℚ) = (⌈cGlob.tf / cGlob.dt⌉₊ : ℚ) - 1 := by
      rw [Nat.cast_sub hpos]; simp
    rw [hc] at h
    linarith
  have hnone : cGlob.tf ≤ 0 → ⌈cGlob.tf / cGlob.dt⌉₊ = 0 := fun htf =>
    Nat.ceil_eq_zero.2 (div_nonpos_of_nonpos_of_nonneg htf hdt.le)
  refine ⟨⌈cGlob.tf / cGlob.dt⌉₊, hbelow, hreach, fun j => ⟨?_, ?_⟩, ?_⟩
  · exact (iterate_time cGlob ext _ hbh hM (initLocal cGlob ext mem tstep) rfl j).1
  · exact (iterate_time cGlob ext _ hbg hM _ rfl j).1
  · intro fuel hfuel
    have key : ∀ (body : Local α → Local α) (s : Local α),
        (∀ s, (body s).tmine = s.tmine + 1
          ∧ (body s).t_eq = s.t_eq + (if ext.MODULA s.tmine then cGlob.dt else 0)) →
        s.t_eq = 0 →
        whileLoop (running cGlob) body fuel s = some (body^[⌈cGlob.tf / cGlob.dt⌉₊] s) := by
      intro body s hbody hs
      refine whileLoop_iterate _ _ _ fuel s hfuel (fun j hj => ?_) ?_
      · simp only [running, (iterate_time cGlob ext body hbody hM s hs j).1, decide_eq_true_eq]
        exact hbelow j hj
      · simp only [running, (iterate_time cGlob ext body hbody hM s hs _).1,
          decide_eq_false_iff_not, not_lt]
        exact hreach
    have fin : ∀ r : Returned α, r.t_eq = (⌈cGlob.tf / cGlob.dt⌉₊ : ℚ) * cGlob.dt →
        r.tstep = tstep + (⌈cGlob.tf / cGlob.dt⌉₊ : Int) →
        cGlob.tf ≤ r.t_eq ∧ (0 < cGlob.tf → r.t_eq - cGlob.dt < cGlob.tf)
          ∧ (cGlob.tf ≤ 0 → ⌈cGlob.tf / cGlob.dt⌉₊ = 0 ∧ r.t_eq = 0 ∧ r.tstep = tstep) := by
      intro r h1 h2
      refine ⟨h1 ▸ hreach, fun htf => h1 ▸ hlast htf, fun htf => ⟨hnone htf, ?_, ?_⟩⟩
      · rw [h1, hnone htf]; simp
      · rw [h2, hnone htf]; simp
    cases hg : cGlob.hasGpu with
    | false =>
        have ht := iterate_time cGlob ext _ hbh hM (initLocal cGlob ext mem tstep) rfl
          ⌈cGlob.tf / cGlob.dt⌉₊
        have hf := fin
          { t_eq := ((hostBody cGlob ranks ext recvd xpts)^[⌈cGlob.tf / cGlob.dt⌉₊]
              (initLocal cGlob ext mem tstep)).t_eq,
            tstep := ((hostBody cGlob ranks ext recvd xpts)^[⌈cGlob.tf / cGlob.dt⌉₊]
              (initLocal cGlob ext mem tstep)).tmine,
            mem := ((hostBody cGlob ranks ext recvd xpts)^[⌈cGlob.tf / cGlob.dt⌉₊]
              (initLocal cGlob ext mem tstep)).mem,
            trace := ((hostBody cGlob ranks ext recvd xpts)^[⌈cGlob.tf / cGlob.dt⌉₊]
              (initLocal cGlob ext mem tstep)).trace } ht.1 ht.2
        refine ⟨_, ?_, ht.1, ht.2, hf.1, hf.2.1, hf.2.2, fun _ => ⟨rfl, rfl⟩,
          fun h => absurd h (by simp)⟩
        simp only [classicWrapper, hg, Bool.false_eq_true, if_false]
        rw [key _ _ hbh rfl]
        rfl
    | true =>
        have ht := iterate_time cGlob ext _ hbg hM
          { initLocal cGlob ext mem tstep with
            mem := mem.copy Buf.dState (Buf.state 1) (cGlob.xg + 2) } rfl
          ⌈cGlob.tf / cGlob.dt⌉₊
        have hf := fin
          { t_eq := ((gpuBody cGlob ranks ext recvd xpts alen)^[⌈cGlob.tf / cGlob.dt⌉₊]
              { initLocal cGlob ext mem tstep with
                mem := mem.copy Buf.dState (Buf.state 1) (cGlob.xg + 2) }).t_eq,
            tstep := ((gpuBody cGlob ranks ext recvd xpts alen)^[⌈cGlob.tf / cGlob.dt⌉₊]
              { initLocal cGlob ext mem tstep with
                mem := mem.copy Buf.dState (Buf.state 1) (cGlob.xg + 2) }).tmine,
            mem := (((gpuBody cGlob ranks ext recvd xpts alen)^[⌈cGlob.tf / cGlob.dt⌉₊]
              { initLocal cGlob ext mem tstep with
                mem := mem.copy Buf.dState (Buf.state 1) (cGlob.xg + 2) }).mem).copy
              (Buf.state 1) Buf.dState (cGlob.xg + 2),
            trace := ((gpuBody cGlob ranks ext recvd xpts alen)^[⌈cGlob.tf / cGlob.dt⌉₊]
              { initLocal cGlob ext mem tstep with
                mem := mem.copy Buf.dState (Buf.state 1) (cGlob.xg + 2) }).trace } ht.1 ht.2
        refine ⟨_, ?_, ht.1, ht.2, hf.1, hf.2.1, hf.2.2, fun h => absurd h (by simp),
          fun _ => ⟨rfl, rfl⟩⟩
        simp only [classicWrapper, hg, if_true]
        rw [show ({ initLocal cGlob ext mem tstep with
            mem := (initLocal cGlob ext mem tstep).mem.copy Buf.dState (Buf.state 1)
              (cGlob.xg + 2) } : Local α)
          = { initLocal cGlob ext mem tstep with
            mem := mem.copy Buf.dState (Buf.state 1) (cGlob.xg + 2) } from rfl]
        rw [key _ _ hbg rfl]
        rfl

/-- C5, amended, on the scenario with timestep 0.01 and horizon 0.05. -/
theorem classicWrapper_terminates_witness :
    ∃ N : Nat, scenario.tf ≤ (N : ℚ) * scenario.dt
      ∧ ∃ r : Returned Int,
          classicWrapper N scenario middle plain (fun _ => 0) ramp (fun _ => 0) (fun _ => 0) 7
            = some r
          ∧ r.tstep = 7 + (N : Int) := by
  obtain ⟨N, _, h2, _, h5⟩ :=
    classicWrapper_terminates scenario middle plain (fun _ => 0) (fun _ => 0) (fun _ => 0)
      ramp 7 (by norm_num [scenario]) (fun _ => rfl)
  obtain ⟨r, hr, _, hr2, _⟩ := h5 N le_rfl
  exact ⟨N, h2, r, hr, hr2⟩

theorem whileLoop_proj {σ τ : Type} (proj : σ → τ) (cond : σ → Bool) (body : σ → σ)
    (cond' : τ → Bool) (body' : τ → τ) (hcond : ∀ s, cond s = cond' (proj s))
    (hbody : ∀ s, proj (body s) = body' (proj s)) :
    ∀ (fuel : Nat) (s : σ),
      (whileLoop cond body fuel s).map proj = whileLoop cond' body' fuel (proj s) := by
  intro fuel
  induction fuel with
  | zero =>
      intro s
      simp only [whileLoop, ← hcond]
      cases cond s <;> simp
  | succ fuel ih =>
      intro s
      simp only [whileLoop, ← hcond]
      cases cond s
      · simp
      · simp only [if_true, ih, hbody]

/-- With exact arithmetic the time returned by `classicWrapper` and the counter it writes
back are those of `clockLoop`, in both branches and for every amount of fuel. -/
theorem classicWrapper_clock (fuel : Nat) (mem : Mem α) (tstep : Int) :
    (classicWrapper fuel cGlob ranks ext recvd mem xpts alen tstep).map
        (fun r => (r.t_eq, r.tstep))
      = clockLoop (fun a b => a + b) (fun a b => decide (a < b)) ext.MODULA cGlob.dt cGlob.tf
          fuel (0, tstep) := by
  have key : ∀ (body : Local α → Local α) (s : Local α),
      (∀ s, (body s).tmine = s.tmine + 1
        ∧ (body s).t_eq = s.t_eq + (if ext.MODULA s.tmine then cGlob.dt else 0)) →
      (whileLoop (running cGlob) body fuel s).map (fun s => (s.t_eq, s.tmine))
        = clockLoop (fun a b => a + b) (fun a b => decide (a < b)) ext.MODULA cGlob.dt
            cGlob.tf fuel (s.t_eq, s.tmine) := by
    intro body s hbody
    unfold clockLoop
    refine whileLoop_proj (fun s : Local α => (s.t_eq, s.tmine)) (running cGlob) body
      (fun s : ℚ × Int => decide (s.1 < cGlob.tf))
      (fun s : ℚ × Int => (if ext.MODULA s.2 then s.1 + cGlob.dt else s.1, s.2 + 1))
      (fun s => rfl) (fun s => ?_) fuel s
    simp only [(hbody s).1, (hbody s).2]
    by_cases h : ext.MODULA s.tmine = true <;> simp [h]
  cases hg : cGlob.hasGpu with
  | false =>
      simp only [classicWrapper, hg, Bool.false_eq_true, if_false, Option.map_map]
      exact key _ _ (hostBody_clock cGlob ranks ext recvd xpts)
  | true =>
      simp only [classicWrapper, hg, if_true, Option.map_map]
      exact key _ { initLocal cGlob ext mem tstep with
        mem := (initLocal cGlob ext mem tstep).mem.copy Buf.dState (Buf.state 1)
          (cGlob.xg + 2) } (gpuBody_clock cGlob ranks ext recvd xpts alen)

/-- C5 as stated fails in the arithmetic of the code. With `dt = 0.581` and `tf = 3.486`
as doubles, a clock advancing in every iteration and the counter starting at 0, the clock
of the loop (`clockLoop`, which `classicWrapper_clock` shows to be the clock of
`classicWrapper`) with rounded sums is still below `tf` after six iterations, runs a
seventh time and returns `4.067` with counter 7; then `t - dt` is `tf` itself, computed
exactly or as a double, not less than `tf`. -/
theorem clock_rounding_fails :
    Dbl.ofRatio 581 1000 = { m := 5233182767004516, e := -53 }
    ∧ Dbl.ofRatio 3486 1000 = { m := 7849774150506775, e := -51 }
    ∧ clockLoop Dbl.add Dbl.lt (fun _ => true) (Dbl.ofRatio 581 1000) (Dbl.ofRatio 3486 1000) 6
        ({ m := 0, e := 0 }, 0) = none
    ∧ clockLoop Dbl.add Dbl.lt (fun _ => true) (Dbl.ofRatio 581 1000) (Dbl.ofRatio 3486 1000) 7
        ({ m := 0, e := 0 }, 0) = some ({ m := 4579034921128952, e := -50 }, 7)
    ∧ 0 < (Dbl.ofRatio 581 1000).toRat
    ∧ 0 < (Dbl.ofRatio 3486 1000).toRat
    ∧ ¬ ((Dbl.toRat { m := 4579034921128952, e := -50 }) - (Dbl.ofRatio 581 1000).toRat
          < (Dbl.ofRatio 3486 1000).toRat)
    ∧ Dbl.lt (Dbl.sub { m := 4579034921128952, e := -50 } (Dbl.ofRatio 581 1000))
        (Dbl.ofRatio 3486 1000) = false := by
  have h1 : Dbl.ofRatio 581 1000 = { m := 5233182767004516, e := -53 } := by decide
  have h2 : Dbl.ofRatio 3486 1000 = { m := 7849774150506775, e := -51 } := by decide
  refine ⟨h1, h2, by decide, by decide, ?_, ?_, ?_, by decide⟩
  · rw [h1]; norm_num [Dbl.toRat]
  · rw [h2]; norm_num [Dbl.toRat]
  · rw [h1, h2]; norm_num [Dbl.toRat]

end Termination

/-! ## The concrete scenario -/

section Scenario

variable {α : Type} (cGlob : Globals) (ranks : Fin 3 → Int) (ext : Externals α)
  (recvd : Nat → α) (xpts alen : Fin 3 → Int)

theorem stamps_append (tr tr' : List (Event α)) :
    stamps (tr ++ tr') = stamps tr ++ stamps tr' := by
  simp [stamps, outputs_append]

theorem stamps_eq_of_outputs {tr tr' : List (Event α)} (h : outputs tr = outputs tr') :
    stamps tr = stamps tr' := by
  simp [stamps, h]

theorem stamps_of_outputs_append {tr tr' l : List (Event α)}
    (h : outputs tr = outputs tr' ++ l) :
    stamps tr = stamps tr' ++ l.filterMap Event.stamp := by
  simp [stamps, h]

theorem stamps_emitted (m : Mem α) (t : ℚ) (i : Fin 3) (n : Int) :
    (emitted xpts m t i n).filterMap Event.stamp
      = (indices 1 n.toNat).map fun k => (i, t, k) := by
  simp only [emitted, List.filterMap_map]
  rw [← List.filterMap_eq_map]
  rfl

/-- An iteration of the branch without accelerator in which the clock advances and the
new time is beyond the threshold. -/
theorem hostBody_fire (hM : ∀ t, ext.MODULA t = true) (s0 : Local α) (n : Nat) (t w : ℚ)
    (l : List (Fin 3 × ℚ × Int)) (k : Nat)
    (ht : ((hostBody cGlob ranks ext recvd xpts)^[n] s0).t_eq = t)
    (hw : ((hostBody cGlob ranks ext recvd xpts)^[n] s0).twrite = w)
    (hl : stamps ((hostBody cGlob ranks ext recvd xpts)^[n] s0).trace = l)
    (hk : firings cGlob ext (hostBody cGlob ranks ext recvd xpts) s0 n = k)
    (hlt : w < t + cGlob.dt) :
    ((hostBody cGlob ranks ext recvd xpts)^[n + 1] s0).t_eq = t + cGlob.dt
    ∧ ((hostBody cGlob ranks ext recvd xpts)^[n + 1] s0).twrite = w + cGlob.freq
    ∧ stamps ((hostBody cGlob ranks ext recvd xpts)^[n + 1] s0).trace
        = l ++ (indices 1 cGlob.xcpu.toNat).map (fun j => ((0 : Fin 3), t + cGlob.dt, j))
    ∧ firings cGlob ext (hostBody cGlob ranks ext recvd xpts) s0 (n + 1) = k + 1 := by
  have hc : crossed cGlob ext ((hostBody cGlob ranks ext recvd xpts)^[n] s0) = true := by
    simp only [crossed, tick_t_eq, hM, if_true, ht, hw, decide_eq_true_eq]
    exact hlt
  have hout := (hostBody_output cGlob ranks ext recvd xpts
    ((hostBody cGlob ranks ext recvd xpts)^[n] s0)).1 hc
  have hte : ((hostBody cGlob ranks ext recvd xpts)^[n + 1] s0).t_eq = t + cGlob.dt := by
    rw [Function.iterate_succ_apply', (hostBody_clock cGlob ranks ext recvd xpts _).2, hM, ht]
    simp
  refine ⟨hte, ?_, ?_, ?_⟩
  · rw [Function.iterate_succ_apply', hout.1, hw]
  · rw [Function.iterate_succ_apply', stamps_of_outputs_append hout.2, stamps_emitted, hl,
      ← Function.iterate_succ_apply' (hostBody cGlob ranks ext recvd xpts), hte]
  · rw [firings_succ, hk, hc]
    rfl

/-- An iteration of the branch without accelerator in which the clock advances and the
new time is not beyond the threshold. -/
theorem hostBody_quiet (hM : ∀ t, ext.MODULA t = true) (s0 : Local α) (n : Nat) (t w : ℚ)
    (l : List (Fin 3 × ℚ × Int)) (k : Nat)
    (ht : ((hostBody cGlob ranks ext recvd xpts)^[n] s0).t_eq = t)
    (hw : ((hostBody cGlob ranks ext recvd xpts)^[n] s0).twrite = w)
    (hl : stamps ((hostBody cGlob ranks ext recvd xpts)^[n] s0).trace = l)
    (hk : firings cGlob ext (hostBody cGlob ranks ext recvd xpts) s0 n = k)
    (hle : t + cGlob.dt ≤ w) :
    ((hostBody cGlob ranks ext recvd xpts)^[n + 1] s0).t_eq = t + cGlob.dt
    ∧ ((hostBody cGlob ranks ext recvd xpts)^[n + 1] s0).twrite = w
    ∧ stamps ((hostBody cGlob ranks ext recvd xpts)^[n + 1] s0).trace = l
    ∧ firings cGlob ext (hostBody cGlob ranks ext recvd xpts) s0 (n + 1) = k := by
  have hc : crossed cGlob ext ((hostBody cGlob ranks ext recvd xpts)^[n] s0) = false := by
    simp only [crossed, tick_t_eq, hM, if_true, ht, hw, decide_eq_false_iff_not, not_lt]
    exact hle
  have hout := (hostBody_output cGlob ranks ext recvd xpts
    ((hostBody cGlob ranks ext recvd xpts)^[n] s0)).2 hc
  refine ⟨?_, ?_, ?_, ?_⟩
  · rw [Function.iterate_succ_apply', (hostBody_clock cGlob ranks ext recvd xpts _).2, hM, ht]
    simp
  · rw [Function.iterate_succ_apply', hout.1, hw]
  · rw [Function.iterate_succ_apply', stamps_eq_of_outputs hout.2, hl]
  · rw [firings_succ, hk, hc]
    rfl

/-- C6. A process without accelerator with 8 interior points, timestep 0.01, horizon 0.05,
output interval 0.02, a clock advancing in every iteration and a threshold offset of a
quarter timestep: the loop condition holds before each of the first 5 iterations and
fails after them, so with 5 or more units of fuel `classicWrapper` returns after exactly
5 iterations; the counter written back is the initial one plus 5, the clock has advanced
5 times, the returned time is 0.05 (not below the horizon), output has fired twice, and
the output calls are those for the indices 1..8 of `state[0]` at time 0.02 followed by
those for the indices 1..8 at time 0.04. -/
theorem scenario_run (mem : Mem α) (tstep : Int)
    (hg : cGlob.hasGpu = false) (hx : cGlob.xcpu = 8) (hdt : cGlob.dt = 1 / 100)
    (htf : cGlob.tf = 5 / 100) (hfreq : cGlob.freq = 2 / 100)
    (hM : ∀ t, ext.MODULA t = true) (hq : ext.QUARTER = 1 / 4) :
    (∀ j : Nat, j < 5 →
        running cGlob ((hostBody cGlob ranks ext recvd xpts)^[j]
          (initLocal cGlob ext mem tstep)) = true)
    ∧ running cGlob ((hostBody cGlob ranks ext recvd xpts)^[5]
          (initLocal cGlob ext mem tstep)) = false
    ∧ cadenceCount ext.MODULA tstep 5 = 5
    ∧ firings cGlob ext (hostBody cGlob ranks ext recvd xpts)
          (initLocal cGlob ext mem tstep) 5 = 2
    ∧ ∀ fuel : Nat, 5 ≤ fuel →
        ∃ r : Returned α,
          classicWrapper fuel cGlob ranks ext recvd mem xpts alen tstep = some r
          ∧ r.tstep = tstep + 5
          ∧ r.t_eq = 5 / 100 ∧ cGlob.tf ≤ r.t_eq
          ∧ r.trace = ((hostBody cGlob ranks ext recvd xpts)^[5]
              (initLocal cGlob ext mem tstep)).trace
          ∧ stamps r.trace
              = (indices 1 8).map (fun k => ((0 : Fin 3), (2 / 100 : ℚ), k))
                ++ (indices 1 8).map (fun k => ((0 : Fin 3), (4 / 100 : ℚ), k)) := by
  have hb := hostBody_clock cGlob ranks ext recvd xpts
  have htime : ∀ j : Nat, ((hostBody cGlob ranks ext recvd xpts)^[j]
      (initLocal cGlob ext mem tstep)).t_eq = (j : ℚ) * (1 / 100) := by
    intro j
    rw [(iterate_time cGlob ext _ hb hM (initLocal cGlob ext mem tstep) rfl j).1, hdt]
  have hrun : ∀ j : Nat, j < 5 →
      running cGlob ((hostBody cGlob ranks ext recvd xpts)^[j]
        (initLocal cGlob ext mem tstep)) = true := by
    intro j hj
    simp only [running, htime, htf, decide_eq_true_eq]
    have : (j : ℚ) ≤ 4 := by exact_mod_cast Nat.le_of_lt_succ hj
    linarith
  have hstop : running cGlob ((hostBody cGlob ranks ext recvd xpts)^[5]
      (initLocal cGlob ext mem tstep)) = false := by
    simp only [running, htime, htf, decide_eq_false_iff_not, not_lt]
    norm_num
  have s0 : ((hostBody cGlob ranks ext recvd xpts)^[0] (initLocal cGlob ext mem tstep)).t_eq = 0
      ∧ ((hostBody cGlob ranks ext recvd xpts)^[0] (initLocal cGlob ext mem tstep)).twrite
          = 7 / 400
      ∧ stamps ((hostBody cGlob ranks ext recvd xpts)^[0]
          (initLocal cGlob ext mem tstep)).trace = []
      ∧ firings cGlob ext (hostBody cGlob ranks ext recvd xpts)
          (initLocal cGlob ext mem tstep) 0 = 0 := by
    refine ⟨rfl, ?_, rfl, rfl⟩
    simp only [Function.iterate_zero, id, initLocal, hq, hdt, hfreq]
    norm_num
  have s1 := hostBody_quiet cGlob ranks ext recvd xpts hM _ 0 _ _ _ _ s0.1 s0.2.1 s0.2.2.1
    s0.2.2.2 (by rw [hdt]; norm_num)
  have s2 := hostBody_fire cGlob ranks ext recvd xpts hM _ 1 _ _ _ _ s1.1 s1.2.1 s1.2.2.1
    s1.2.2.2 (by rw [hdt]; norm_num)
  have s3 := hostBody_quiet cGlob ranks ext recvd xpts hM _ 2 _ _ _ _ s2.1 s2.2.1 s2.2.2.1
    s2.2.2.2 (by rw [hdt, hfreq]; norm_num)
  have s4 := hostBody_fire cGlob ranks ext recvd xpts hM _ 3 _ _ _ _ s3.1 s3.2.1 s3.2.2.1
    s3.2.2.2 (by rw [hdt, hfreq]; norm_num)
  have s5 := hostBody_quiet cGlob ranks ext recvd xpts hM _ 4 _ _ _ _ s4.1 s4.2.1 s4.2.2.1
    s4.2.2.2 (by rw [hdt, hfreq]; norm_num)
  refine ⟨hrun, hstop, cadenceCount_always ext.MODULA hM tstep 5, s5.2.2.2, ?_⟩
  intro fuel hfuel
  have hloop := whileLoop_iterate (running cGlob) (hostBody cGlob ranks ext recvd xpts) 5 fuel
    (initLocal cGlob ext mem tstep) hfuel hrun hstop
  refine ⟨{ t_eq := ((hostBody cGlob ranks ext recvd xpts)^[5]
                (initLocal cGlob ext mem tstep)).t_eq,
            tstep := ((hostBody cGlob ranks ext recvd xpts)^[5]
                (initLocal cGlob ext mem tstep)).tmine,
            mem := ((hostBody cGlob ranks ext recvd xpts)^[5]
                (initLocal cGlob ext mem tstep)).mem,
            trace := ((hostBody cGlob ranks ext recvd xpts)^[5]
                (initLocal cGlob ext mem tstep)).trace }, ?_, ?_, ?_, ?_, rfl, ?_⟩
  · simp only [classicWrapper, hg, Bool.false_eq_true, if_false]
    rw [hloop]
    rfl
  · exact (iterate_time cGlob ext _ hb hM (initLocal cGlob ext mem tstep) rfl 5).2
  · rw [htime]; norm_num
  · rw [htime, htf]; norm_num
  · rw [s5.2.2.1, hx, hdt]
    norm_num
    rfl

/-- C6 on the scenario itself, with integer cells. -/
theorem scenario_run_witness :
    firings scenario plain (hostBody scenario middle plain (fun _ => 0) (fun _ => 0))
      (initLocal scenario plain ramp 0) 5 = 2 :=
  (scenario_run scenario middle plain (fun _ => 0) (fun _ => 0) (fun _ => 0) ramp 0 rfl rfl rfl
    rfl rfl (fun _ => rfl) rfl).2.2.2.1

end Scenario

/-! ## The halo exchange inside the loop -/

section Exchange

variable {α : Type} (cGlob : Globals) (ranks : Fin 3 → Int) (ext : Externals α)
  (recvd : Nat → α) (xpts alen : Fin 3 → Int)

theorem messages_emitted (m : Mem α) (t : ℚ) (i : Fin 3) (n : Int) :
    messages (emitted xpts m t i n) = [] := by
  simp only [messages, emitted, List.filter_eq_nil_iff, List.mem_map]
  rintro e ⟨k, _, rfl⟩
  simp [Event.isMessage]

theorem hostOutput_messages (s : Local α) :
    messages (hostOutput cGlob xpts s).trace = messages s.trace
      ∧ (hostOutput cGlob xpts s).nrecv = s.nrecv := by
  rw [hostOutput_eq]
  split
  · simp [messages_append, messages_emitted]
  · exact ⟨rfl, rfl⟩

theorem gpuOutput_messages (s : Local α) :
    messages (gpuOutput cGlob xpts alen s).trace = messages s.trace
      ∧ (gpuOutput cGlob xpts alen s).nrecv = s.nrecv := by
  rw [gpuOutput_eq]
  split
  · simp [messages_append, messages_emitted]
  · exact ⟨rfl, rfl⟩

theorem tags_mpiCalls (b : Buf) (calls : List MPICall) :
    ∀ s : Local α, tags (mpiCalls recvd b s calls).trace
      = tags s.trace ++ calls.map MPICall.tag := by
  induction calls with
  | nil => intro s; simp [mpiCalls]
  | cons c calls ih =>
      intro s
      have h := ih (mpiCall recvd b s c)
      simp only [mpiCalls, List.foldl_cons] at h ⊢
      rw [h]
      cases c <;>
        simp [mpiCall, tags, messages, Event.isMessage, Event.tag, MPICall.tag]

theorem tags_of_messages {tr tr' : List (Event α)} (h : messages tr = messages tr') :
    tags tr = tags tr' := by
  simp [tags, h]

/-- The tags used by one iteration of each branch, for a counter value `s.tmine` at the
start of the iteration: the branch without accelerator hands `s.tmine + 1` to the two
exchange functions, the accelerator branch hands them `s.tmine`. -/
theorem body_tags (s : Local α) :
    tags (hostBody cGlob ranks ext recvd xpts s).trace
        = tags s.trace
          ++ (classicPassRight cGlob ranks ext.TAGS (cGlob.xcpu + 1) (s.tmine + 1)
              ++ classicPassLeft cGlob ranks ext.TAGS (cGlob.xcpu + 1) (s.tmine + 1)).map
                MPICall.tag
    ∧ tags (gpuBody cGlob ranks ext recvd xpts alen s).trace
        = tags s.trace
          ++ (classicPassRight cGlob ranks ext.TAGS (cGlob.xcpu.tdiv 2 + 1) s.tmine
              ++ classicPassLeft cGlob ranks ext.TAGS (cGlob.xcpu.tdiv 2 + 1) s.tmine).map
                MPICall.tag := by
  constructor
  · rw [hostBody, tags_of_messages (hostOutput_messages cGlob xpts _).1, hostAdvance]
    simp only [tags_mpiCalls, (mpiCalls_clock recvd _ _ _).2.1, List.map_append,
      List.append_assoc]
    rfl
  · rw [gpuBody, tags_of_messages (gpuOutput_messages cGlob xpts alen _).1, gpuAdvance]
    simp only [tick, tags_mpiCalls, (mpiCalls_clock recvd _ _ _).2.1, List.map_append,
      List.append_assoc]
    rfl

/-- C2 (the code departs from it). First iteration, counter 0, tags equal to their
argument, both neighbours present: the branch without accelerator has advanced the
counter before its exchange and uses the tags 101, 1, 1, 101; the accelerator branch
exchanges first and uses 100, 0, 0, 100. -/
theorem host_exchange_after_counter :
    tags (hostBody scenario middle plain (fun _ => 0) (fun _ => 0)
        (initLocal scenario plain ramp 0)).trace = [101, 1, 1, 101]
    ∧ tags (gpuBody scenarioGpu middle plain (fun _ => 0) (fun _ => 0) (fun _ => 4)
        (initLocal scenarioGpu plain ramp 0)).trace = [100, 0, 0, 100] := by
  constructor
  · rw [(body_tags scenario middle plain (fun _ => 0) (fun _ => 0) (fun _ => 4) _).1]
    rfl
  · rw [(body_tags scenarioGpu middle plain (fun _ => 0) (fun _ => 0) (fun _ => 4) _).2]
    rfl

theorem hostBody_silent (h0 : cGlob.bCond 0 = false) (h1 : cGlob.bCond 1 = false)
    (s : Local α) :
    messages (hostBody cGlob ranks ext recvd xpts s).trace = messages s.trace
      ∧ (hostBody cGlob ranks ext recvd xpts s).nrecv = s.nrecv := by
  rw [hostBody, (hostOutput_messages cGlob xpts _).1, (hostOutput_messages cGlob xpts _).2]
  simp [hostAdvance, classicPassRight, classicPassLeft, h0, h1, mpiCalls, tick, stepCPUOn]

theorem gpuBody_silent (h0 : cGlob.bCond 0 = false) (h1 : cGlob.bCond 1 = false)
    (s : Local α) :
    messages (gpuBody cGlob ranks ext recvd xpts alen s).trace = messages s.trace
      ∧ (gpuBody cGlob ranks ext recvd xpts alen s).nrecv = s.nrecv := by
  rw [gpuBody, (gpuOutput_messages cGlob xpts alen _).1,
    (gpuOutput_messages cGlob xpts alen _).2]
  simp [gpuAdvance, classicPassRight, classicPassLeft, h0, h1, mpiCalls, tick, stepCPUOn,
    launch]

theorem iterate_silent (body : Local α → Local α)
    (hbody : ∀ s, messages (body s).trace = messages s.trace ∧ (body s).nrecv = s.nrecv)
    (s : Local α) (n : Nat) :
    messages (body^[n] s).trace = messages s.trace ∧ (body^[n] s).nrecv = s.nrecv := by
  induction n with
  | zero => exact ⟨rfl, rfl⟩
  | succ n ih => rw [Function.iterate_succ_apply', (hbody _).1, (hbody _).2]; exact ih

/-- C8. When `bCond[0]` is false `classicPassLeft` makes no library call, whatever the
partition, `idxend` and counter, and running it leaves the whole local state, partition
included, as it was; when `bCond[1]` is false the same holds of `classicPassRight`. When
both are false, any number of iterations of either branch adds no send and no receive to
the trace and completes no receive. -/
theorem boundary_gating :
    (cGlob.bCond 0 = false → ∀ (idxend tstep : Int),
        classicPassLeft cGlob ranks ext.TAGS idxend tstep = []
        ∧ ∀ (b : Buf) (s : Local α),
            mpiCalls recvd b s (classicPassLeft cGlob ranks ext.TAGS idxend tstep) = s)
    ∧ (cGlob.bCond 1 = false → ∀ (idxend tstep : Int),
        classicPassRight cGlob ranks ext.TAGS idxend tstep = []
        ∧ ∀ (b : Buf) (s : Local α),
            mpiCalls recvd b s (classicPassRight cGlob ranks ext.TAGS idxend tstep) = s)
    ∧ (cGlob.bCond 0 = false → cGlob.bCond 1 = false → ∀ (s : Local α) (n : Nat),
        messages ((hostBody cGlob ranks ext recvd xpts)^[n] s).trace = messages s.trace
        ∧ ((hostBody cGlob ranks ext recvd xpts)^[n] s).nrecv = s.nrecv
        ∧ messages ((gpuBody cGlob ranks ext recvd xpts alen)^[n] s).trace = messages s.trace
        ∧ ((gpuBody cGlob ranks ext recvd xpts alen)^[n] s).nrecv = s.nrecv) := by
  refine ⟨?_, ?_, ?_⟩
  · intro h0 idxend tstep
    have h : classicPassLeft cGlob ranks ext.TAGS idxend tstep = [] := by
      simp [classicPassLeft, h0]
    exact ⟨h, fun b s => by rw [h]; rfl⟩
  · intro h1 idxend tstep
    have h : classicPassRight cGlob ranks ext.TAGS idxend tstep = [] := by
      simp [classicPassRight, h1]
    exact ⟨h, fun b s => by rw [h]; rfl⟩
  · intro h0 h1 s n
    have hh := iterate_silent _ (hostBody_silent cGlob ranks ext recvd xpts h0 h1) s n
    have hg := iterate_silent _ (gpuBody_silent cGlob ranks ext recvd xpts alen h0 h1) s n
    exact ⟨hh.1, hh.2, hg.1, hg.2⟩

/-- C8 on a process without neighbours: three iterations leave the trace without
messages. -/
theorem boundary_gating_witness :
    classicPassLeft alone middle plain.TAGS 9 0 = []
    ∧ classicPassRight alone middle plain.TAGS 9 0 = []
    ∧ messages ((hostBody alone middle plain (fun _ => 0) (fun _ => 0))^[3]
        (initLocal alone plain ramp 0)).trace = [] :=
  ⟨((boundary_gating alone middle plain (fun _ => 0) (fun _ => 0) (fun _ => 0)).1 rfl 9 0).1,
   ((boundary_gating alone middle plain (fun _ => 0) (fun _ => 0) (fun _ => 0)).2.1 rfl 9 0).1,
   ((boundary_gating alone middle plain (fun _ => 0) (fun _ => 0) (fun _ => 0)).2.2 rfl rfl
      (initLocal alone plain ramp 0) 3).1⟩

end Exchange

/-! ## The paired exchange between two neighbours -/

section Paired

variable {α : Type}

theorem pairedExchange_eq (cGlobA cGlobB : Globals) (ranksA ranksB : Fin 3 → Int)
    (TAGS : Int → Int) (idxend idxendB t : Int) (stateA stateB : Partition α)
    (hA : cGlobA.bCond 1 = true) (hB : cGlobB.bCond 0 = true)
    (hAB : ranksA 2 = ranksB 1) (hBA : ranksB 0 = ranksA 1) :
    pairedExchange cGlobA cGlobB ranksA ranksB TAGS idxend idxendB t stateA stateB
      = { A := { rank := ranksA 1, state := stateA,
                 pending := [MPICall.Isend (idxend - 1) (ranksB 1) (TAGS (t + 100)),
                             MPICall.Recv idxend (ranksB 1) (TAGS t)] },
          B := { rank := ranksB 1, state := stateB,
                 pending := [MPICall.Isend 1 (ranksA 1) (TAGS t),
                             MPICall.Recv 0 (ranksA 1) (TAGS (t + 100))] },
          net := [] } := by
  simp [pairedExchange, classicPassRight, classicPassLeft, hA, hB, hAB, hBA]

theorem Pair.run_append (ws ws' : List Bool) :
    ∀ s : Pair α, Pair.run (ws ++ ws') s = (Pair.run ws s).bind (Pair.run ws') := by
  induction ws with
  | nil => intro s; rfl
  | cons w ws ih =>
      intro s
      simp only [List.cons_append, Pair.run]
      cases h : s.step w with
      | none => rfl
      | some s1 => simp [ih]

/-- Four calls that can all be made bring both processes to the end of their exchange,
with the same partitions whatever the order. -/
theorem paired_run_four (a b : Int) (T : Int → Int) (idxend t : Int)
    (stateA stateB : Partition α) (hne : a ≠ b) (w1 w2 w3 w4 : Bool) (s' : Pair α)
    (hrun : Pair.run [w1, w2, w3, w4]
      { A := { rank := a, state := stateA,
               pending := [MPICall.Isend (idxend - 1) b (T (t + 100)),
                           MPICall.Recv idxend b (T t)] },
        B := { rank := b, state := stateB,
               pending := [MPICall.Isend 1 a (T t), MPICall.Recv 0 a (T (t + 100))] },
        net := [] } = some s') :
    s' = { A := { rank := a, state := Function.update stateA idxend (stateB 1),
                  pending := [] },
           B := { rank := b, state := Function.update stateB 0 (stateA (idxend - 1)),
                  pending := [] },
           net := [] } := by
  have hne' : b ≠ a := fun h => hne h.symm
  cases w1 <;> cases w2 <;> cases w3 <;> cases w4 <;>
    simp [Pair.run, Pair.step, Proc.step, Msg.fits, hne, hne'] at hrun <;> exact hrun.symm

/-- Every schedule that brings both processes to the end of their two calls leaves the
same partitions behind. -/
theorem paired_run_result (a b : Int) (T : Int → Int) (idxend t : Int)
    (stateA stateB : Partition α) (hne : a ≠ b) (sched : List Bool) (s' : Pair α)
    (hrun : Pair.run sched
      { A := { rank := a, state := stateA,
               pending := [MPICall.Isend (idxend - 1) b (T (t + 100)),
                           MPICall.Recv idxend b (T t)] },
        B := { rank := b, state := stateB,
               pending := [MPICall.Isend 1 a (T t), MPICall.Recv 0 a (T (t + 100))] },
        net := [] } = some s')
    (hfin : s'.finished) :
    s'.A.state = Function.update stateA idxend (stateB 1)
      ∧ s'.B.state = Function.update stateB 0 (stateA (idxend - 1))
      ∧ s'.net = [] := by
  have hne' : b ≠ a := fun h => hne h.symm
  rcases sched with _ | ⟨w1, _ | ⟨w2, _ | ⟨w3, _ | ⟨w4, _ | ⟨w5, rest⟩⟩⟩⟩⟩
  · simp [Pair.run] at hrun
    subst hrun
    simp [Pair.finished] at hfin
  · cases w1 <;> simp [Pair.run, Pair.step, Proc.step] at hrun <;> subst hrun <;>
      simp [Pair.finished] at hfin
  · cases w1 <;> cases w2 <;>
      simp [Pair.run, Pair.step, Proc.step, Msg.fits, hne, hne'] at hrun <;> subst hrun <;>
      simp [Pair.finished] at hfin
  · cases w1 <;> cases w2 <;> cases w3 <;>
      simp [Pair.run, Pair.step, Proc.step, Msg.fits, hne, hne'] at hrun <;> subst hrun <;>
      simp [Pair.finished] at hfin
  · rw [paired_run_four a b T idxend t stateA stateB hne w1 w2 w3 w4 s' hrun]
    exact ⟨rfl, rfl, rfl⟩
  · have happ : w1 :: w2 :: w3 :: w4 :: w5 :: rest = [w1, w2, w3, w4] ++ (w5 :: rest) := rfl
    rw [happ, Pair.run_append] at hrun
    cases h4 : Pair.run [w1, w2, w3, w4]
      { A := { rank := a, state := stateA,
               pending := [MPICall.Isend (idxend - 1) b (T (t + 100)),
                           MPICall.Recv idxend b (T t)] },
        B := { rank := b, state := stateB,
               pending := [MPICall.Isend 1 a (T t), MPICall.Recv 0 a (T (t + 100))] },
        net := [] } with
    | none => simp [h4] at hrun
    | some s4 =>
        rw [h4, paired_run_four a b T idxend t stateA stateB hne w1 w2 w3 w4 s4 h4] at hrun
        cases w5 <;> simp [Pair.run, Pair.step, Proc.step] at hrun

theorem LatePair.run_late_append (ws ws' : List Bool) :
    ∀ s : LatePair α, LatePair.run (ws ++ ws') s = (LatePair.run ws s).bind (LatePair.run ws') := by
  induction ws with
  | nil => intro s; rfl
  | cons w ws ih =>
      intro s
      simp only [List.cons_append, LatePair.run]
      cases h : s.step w with
      | none => rfl
      | some s1 => simp [ih]

/-- Four calls with payloads read late: the same partitions as with payloads read at
once. -/
theorem late_run_four (a b : Int) (T : Int → Int) (idxend t : Int)
    (stateA stateB : Partition α) (hne : a ≠ b) (w1 w2 w3 w4 : Bool) (s' : LatePair α)
    (hrun : LatePair.run [w1, w2, w3, w4]
      { A := { rank := a, state := stateA,
               pending := [MPICall.Isend (idxend - 1) b (T (t + 100)),
                           MPICall.Recv idxend b (T t)] },
        B := { rank := b, state := stateB,
               pending := [MPICall.Isend 1 a (T t), MPICall.Recv 0 a (T (t + 100))] },
        post := [] } = some s') :
    s' = { A := { rank := a, state := Function.update stateA idxend (stateB 1),
                  pending := [] },
           B := { rank := b, state := Function.update stateB 0 (stateA (idxend - 1)),
                  pending := [] },
           post := [] } := by
  have hne' : b ≠ a := fun h => hne h.symm
  cases w1 <;> cases w2 <;> cases w3 <;> cases w4 <;>
    simp [LatePair.run, LatePair.step, Proc.stepLate, Letter.fits, hne, hne'] at hrun <;>
    exact hrun.symm

theorem late_run_result (a b : Int) (T : Int → Int) (idxend t : Int)
    (stateA stateB : Partition α) (hne : a ≠ b) (sched : List Bool) (s' : LatePair α)
    (hrun : LatePair.run sched
      { A := { rank := a, state := stateA,
               pending := [MPICall.Isend (idxend - 1) b (T (t + 100)),
                           MPICall.Recv idxend b (T t)] },
        B := { rank := b, state := stateB,
               pending := [MPICall.Isend 1 a (T t), MPICall.Recv 0 a (T (t + 100))] },
        post := [] } = some s')
    (hfin : s'.A.pending = [] ∧ s'.B.pending = []) :
    s'.A.state = Function.update stateA idxend (stateB 1)
      ∧ s'.B.state = Function.update stateB 0 (stateA (idxend - 1))
      ∧ s'.post = [] := by
  have hne' : b ≠ a := fun h => hne h.symm
  rcases sched with _ | ⟨w1, _ | ⟨w2, _ | ⟨w3, _ | ⟨w4, _ | ⟨w5, rest⟩⟩⟩⟩⟩
  · simp [LatePair.run] at hrun
    subst hrun
    simp at hfin
  · cases w1 <;> simp [LatePair.run, LatePair.step, Proc.stepLate] at hrun <;> subst hrun <;>
      simp at hfin
  · cases w1 <;> cases w2 <;>
      simp [LatePair.run, LatePair.step, Proc.stepLate, Letter.fits, hne, hne'] at hrun <;>
      subst hrun <;> simp at hfin
  · cases w1 <;> cases w2 <;> cases w3 <;>
      simp [LatePair.run, LatePair.step, Proc.stepLate, Letter.fits, hne, hne'] at hrun <;>
      subst hrun <;> simp at hfin
  · rw [late_run_four a b T idxend t stateA stateB hne w1 w2 w3 w4 s' hrun]
    exact ⟨rfl, rfl, rfl⟩
  · have happ : w1 :: w2 :: w3 :: w4 :: w5 :: rest = [w1, w2, w3, w4] ++ (w5 :: rest) := rfl
    rw [happ, LatePair.run_late_append] at hrun
    cases h4 : LatePair.run [w1, w2, w3, w4]
      { A := { rank := a, state := stateA,
               pending := [MPICall.Isend (idxend - 1) b (T (t + 100)),
                           MPICall.Recv idxend b (T t)] },
        B := { rank := b, state := stateB,
               pending := [MPICall.Isend 1 a (T t), MPICall.Recv 0 a (T (t + 100))] },
        post := [] } with
    | none => simp [h4] at hrun
    | some s4 =>
        rw [h4, late_run_four a b T idxend t stateA stateB hne w1 w2 w3 w4 s4 h4] at hrun
        cases w5 <;> simp [LatePair.run, LatePair.step, Proc.stepLate] at hrun

/-- A process of the accelerator branch next to a process of the branch without
accelerator, in the same iteration with counter `t` at its start and tags equal to their
argument: the left one enters `classicPassRight` with `t`, the right one enters
`classicPassLeft` with `t + 1`, and no schedule lets both return. -/
theorem mixed_pair_stalls (a b : Int) (idxend t : Int) (stateA stateB : Partition α)
    (hne : a ≠ b) (sched : List Bool) (s' : Pair α)
    (hrun : Pair.run sched
      { A := { rank := a, state := stateA,
               pending := [MPICall.Isend (idxend - 1) b (t + 100), MPICall.Recv idxend b t] },
        B := { rank := b, state := stateB,
               pending := [MPICall.Isend 1 a (t + 1), MPICall.Recv 0 a (t + 1 + 100)] },
        net := [] } = some s') :
    ¬ s'.finished := by
  have hne' : b ≠ a := fun h => hne h.symm
  rcases sched with _ | ⟨w1, _ | ⟨w2, _ | ⟨w3, rest⟩⟩⟩
  · simp [Pair.run] at hrun
    subst hrun
    simp [Pair.finished]
  · cases w1 <;> simp [Pair.run, Pair.step, Proc.step] at hrun <;> subst hrun <;>
      simp [Pair.finished]
  · cases w1 <;> cases w2 <;>
      simp [Pair.run, Pair.step, Proc.step, Msg.fits, hne, hne'] at hrun <;> subst hrun <;>
      simp [Pair.finished]
  · cases w1 <;> cases w2 <;> cases w3 <;>
      simp [Pair.run, Pair.step, Proc.step, Msg.fits, hne, hne'] at hrun

/-- C1. Two neighbours `A` (left) and `B` (right) whose shared-edge flags are set, `A`
calling `classicPassRight` and `B` calling `classicPassLeft` with the same counter `t`:
`A` sends `state[idxend-1]` to `B` with tag `TAGS(t+100)`, the tag of `B`'s receive from
`A`, and `B` sends `state[1]` to `A` with tag `TAGS(t)`, the tag of `A`'s receive from `B`.
The exchange can complete (both sends, then both receives), and whichever way the four
calls interleave, once both processes have returned, cell `idxend` of `A` (its right ghost
when `idxend = length-1`) holds what cell
`1` of `B` held before, cell `0` of `B` holds what cell `idxend-1` of `A` held before, every
other cell of either partition is as before, and no message is left in flight. The
partitions are the same whether a send reads its buffer when it is issued or only when
the matching receive completes. -/
theorem paired_exchange (cGlobA cGlobB : Globals) (ranksA ranksB : Fin 3 → Int)
    (TAGS : Int → Int) (idxend idxendB t : Int) (stateA stateB : Partition α)
    (hA : cGlobA.bCond 1 = true) (hB : cGlobB.bCond 0 = true)
    (hAB : ranksA 2 = ranksB 1) (hBA : ranksB 0 = ranksA 1) (hne : ranksA 1 ≠ ranksB 1) :
    classicPassRight cGlobA ranksA TAGS idxend t
        = [MPICall.Isend (idxend - 1) (ranksB 1) (TAGS (t + 100)),
           MPICall.Recv idxend (ranksB 1) (TAGS t)]
    ∧ classicPassLeft cGlobB ranksB TAGS idxendB t
        = [MPICall.Isend 1 (ranksA 1) (TAGS t), MPICall.Recv 0 (ranksA 1) (TAGS (t + 100))]
    ∧ (∃ s' : Pair α,
        Pair.run [false, true, false, true]
          (pairedExchange cGlobA cGlobB ranksA ranksB TAGS idxend idxendB t stateA stateB)
          = some s' ∧ s'.finished)
    ∧ (∀ (sched : List Bool) (s' : Pair α),
        Pair.run sched
          (pairedExchange cGlobA cGlobB ranksA ranksB TAGS idxend idxendB t stateA stateB)
          = some s' →
        s'.finished →
          s'.A.state idxend = stateB 1
          ∧ s'.B.state 0 = stateA (idxend - 1)
          ∧ (∀ k, k ≠ idxend → s'.A.state k = stateA k)
          ∧ (∀ k, k ≠ 0 → s'.B.state k = stateB k)
          ∧ s'.net = [])
    ∧ ∀ (sched : List Bool) (s' : LatePair α),
        LatePair.run sched
          (latePairedExchange cGlobA cGlobB ranksA ranksB TAGS idxend idxendB t stateA stateB)
          = some s' →
        s'.A.pending = [] ∧ s'.B.pending = [] →
          s'.A.state = Function.update stateA idxend (stateB 1)
          ∧ s'.B.state = Function.update stateB 0 (stateA (idxend - 1)) := by
  have heq := pairedExchange_eq cGlobA cGlobB ranksA ranksB TAGS idxend idxendB t stateA
    stateB hA hB hAB hBA
  have hne' : ranksB 1 ≠ ranksA 1 := fun h => hne h.symm
  refine ⟨?_, ?_, ?_, ?_, ?_⟩
  rotate_right
  · intro sched s' hrun hfin
    have hl : latePairedExchange cGlobA cGlobB ranksA ranksB TAGS idxend idxendB t stateA
        stateB
        = { A := { rank := ranksA 1, state := stateA,
                   pending := [MPICall.Isend (idxend - 1) (ranksB 1) (TAGS (t + 100)),
                               MPICall.Recv idxend (ranksB 1) (TAGS t)] },
            B := { rank := ranksB 1, state := stateB,
                   pending := [MPICall.Isend 1 (ranksA 1) (TAGS t),
                               MPICall.Recv 0 (ranksA 1) (TAGS (t + 100))] },
            post := [] } := by
      simp [latePairedExchange, classicPassRight, classicPassLeft, hA, hB, hAB, hBA]
    rw [hl] at hrun
    have h := late_run_result (ranksA 1) (ranksB 1) TAGS idxend t stateA stateB hne sched s'
      hrun hfin
    exact ⟨h.1, h.2.1⟩
  · simp [classicPassRight, hA, hAB]
  · simp [classicPassLeft, hB, hBA]
  · rw [heq]
    refine ⟨{ A := { rank := ranksA 1, state := Function.update stateA idxend (stateB 1),
                     pending := [] },
              B := { rank := ranksB 1,
                     state := Function.update stateB 0 (stateA (idxend - 1)),
                     pending := [] },
              net := [] }, ?_, rfl, rfl⟩
    simp [Pair.run, Pair.step, Proc.step, Msg.fits, hne, hne']
  · intro sched s' hrun hfin
    rw [heq] at hrun
    obtain ⟨h1, h2, h3⟩ :=
      paired_run_result (ranksA 1) (ranksB 1) TAGS idxend t stateA stateB hne sched s' hrun
        hfin
    rw [h1, h2]
    refine ⟨by simp, by simp, fun k hk => ?_, fun k hk => ?_, h3⟩
    · simp [Function.update, hk]
    · simp [Function.update, hk]

/-- C1 on two neighbouring processes of ranks 1 and 2 with the partitions of `ramp`. -/
theorem paired_exchange_witness :
    ∃ s' : Pair Int,
      Pair.run [false, true, false, true]
        (pairedExchange scenario scenario (fun i => (i : Int)) (fun i => (i : Int) + 1)
          (fun x => x) 9 9 0 (ramp (Buf.state 0)) (ramp (Buf.state 2))) = some s'
      ∧ s'.finished :=
  (paired_exchange scenario scenario (fun i => (i : Int)) (fun i => (i : Int) + 1)
    (fun x => x) 9 9 0 (ramp (Buf.state 0)) (ramp (Buf.state 2)) rfl rfl (by decide)
    (by decide) (by decide)).2.2.1

end Paired

/-! ## Accelerator assignment -/

section Detector

theorem indices_snoc (lo : Int) (n : Nat) :
    indices lo (n + 1) = indices lo n ++ [lo + (n : Int)] := by
  simp [indices, List.range_succ]

/-- The state of the assignment loop after its first `j` rounds, for any initial content
`P0` of `props`. -/
theorem assign_invariant (nGo : Int) (hn : 0 ≤ nGo) (tmo : Int → Bool) (P0 : Int → Bool)
    (startpos : Int) (j : Nat) (r : Int) :
    let p := (indices startpos j).foldl (fun ps i => assignRound nGo tmo i ps)
      (fun r => { nset := 0, hasG := false, props := P0 r, bound := [], left := false }) r
    p.nset = min (j : Int) nGo
    ∧ (p.left = true ↔ nGo < j)
    ∧ (p.hasG = true ↔ startpos ≤ r ∧ r < startpos + min (j : Int) nGo
        ∧ cudaGetDeviceProperties nGo tmo (r - 1) (P0 r) = false)
    ∧ p.bound = (if p.hasG then cudaSetDevice nGo (r - 1) [] else [])
    ∧ (¬ (startpos ≤ r ∧ r < startpos + min (j : Int) nGo) → p.props = P0 r) := by
  induction j generalizing r with
  | zero =>
      simp [indices_zero]
      omega
  | succ j ih =>
      rw [indices_snoc, List.foldl_append]
      simp only [List.foldl_cons, List.foldl_nil]
      generalize (indices startpos j).foldl (fun ps i => assignRound nGo tmo i ps)
        (fun r => { nset := 0, hasG := false, props := P0 r, bound := [], left := false })
        = ps at ih ⊢
      have ihr := ih r
      have ihi := ih (startpos + j)
      simp only at ihr ihi
      obtain ⟨r1, r2, r3, r4, r5⟩ := ihr
      obtain ⟨i1, i2, _, _, _⟩ := ihi
      have hc : (((j + 1 : Nat)) : Int) = (j : Int) + 1 := by push_cast; rfl
      rw [hc]
      rcases lt_trichotomy nGo (j : Int) with h | h | h
      · have hlr : (ps r).left = true := r2.2 h
        have hm : min ((j : Int) + 1) nGo = min (j : Int) nGo := by omega
        simp only [assignRound, assignBody, hlr, if_true, hm]
        exact ⟨r1, ⟨fun _ => by omega, fun _ => trivial⟩, r3, r4, r5⟩
      · have hlr : (ps r).left = false := by
          cases hx : (ps r).left
          · rfl
          · have := r2.1 hx; omega
        have hm : min ((j : Int) + 1) nGo = min (j : Int) nGo := by omega
        have hz : nGo - (ps r).nset = 0 := by rw [r1]; omega
        simp only [assignRound, assignBody, hlr, Bool.false_eq_true, if_false, hz, if_true, hm]
        exact ⟨r1, ⟨fun _ => by omega, fun _ => trivial⟩, r3, r4, r5⟩
      · have hlr : (ps r).left = false := by
          cases hx : (ps r).left
          · rfl
          · have := r2.1 hx; omega
        have hli : (ps (startpos + j)).left = false := by
          cases hx : (ps (startpos + j)).left
          · rfl
          · have := i2.1 hx; omega
        have hm : min ((j : Int) + 1) nGo = j + 1 := by omega
        have hm' : min (j : Int) nGo = j := by omega
        rw [hm'] at r1 i1 r3 r5
        have hz : ¬ nGo - (ps r).nset = 0 := by rw [r1]; omega
        have hzi : ¬ nGo - (ps (startpos + j)).nset = 0 := by rw [i1]; omega
        have hlt : ¬ (nGo < (j : Int) + 1) := by omega
        by_cases hri : startpos + (j : Int) = r
        · subst hri
          have hG : (ps (startpos + j)).hasG = false := by
            cases hx : (ps (startpos + j)).hasG
            · rfl
            · have := r3.1 hx; omega
          have hP : (ps (startpos + j)).props = P0 (startpos + j) := r5 (by omega)
          rw [hG] at r4
          cases ht : cudaGetDeviceProperties nGo tmo (startpos + j - 1) (P0 (startpos + j)) <;>
            simp [assignRound, assignBody, hlr, hz, hm, ht, hG, r4, hlt, hP] <;> simp [r1]
        · simp only [assignRound, assignBody, hlr, hli, hz, hzi, hri, Bool.false_eq_true,
            if_false, if_true, hm]
          refine ⟨?_, ⟨fun hx => absurd hx (by simp), fun hx => absurd hx hlt⟩, ?_, r4, ?_⟩
          · split <;> simp [i1]
          · rw [r3]
            constructor
            · rintro ⟨a, b, c⟩
              exact ⟨a, by omega, c⟩
            · rintro ⟨a, b, c⟩
              exact ⟨a, by omega, c⟩
          · intro hE
            exact r5 (fun hx => hE ⟨hx.1, by omega⟩)

theorem detector_eq (nGo : Int) (hn : 0 ≤ nGo) (tmo uninit : Int → Bool)
    (machineSize startpos r : Int) :
    ((detector nGo tmo uninit machineSize startpos r).hasG = true ↔
        startpos ≤ r ∧ r < machineSize ∧ r < startpos + nGo
          ∧ cudaGetDeviceProperties nGo tmo (r - 1) (detectorInit nGo tmo uninit r).props
              = false)
    ∧ (detector nGo tmo uninit machineSize startpos r).bound
        = if (detector nGo tmo uninit machineSize startpos r).hasG then
            cudaSetDevice nGo (r - 1) []
          else [] := by
  have h := assign_invariant nGo hn tmo (fun r => (detectorInit nGo tmo uninit r).props)
    startpos (machineSize - startpos).toNat r
  simp only at h
  have hinit : detectorInit nGo tmo uninit
      = fun r => { nset := 0, hasG := false, props := (detectorInit nGo tmo uninit r).props,
                   bound := [], left := false } := rfl
  rw [detector, forRange_eq_foldl, hinit]
  refine ⟨?_, h.2.2.2.1⟩
  rw [h.2.2.1]
  constructor
  · rintro ⟨a, b, c⟩
    exact ⟨a, by omega, by omega, c⟩
  · rintro ⟨a, b, c, d⟩
    exact ⟨a, by omega, d⟩

/-- C9 as stated fails: two devices of which device 0 has the execution timeout enabled,
two processes on the machine, `startpos = 1`. Rank 1 is the only eligible process and
device 1 the only suitable device, but rank 1 examines device 0 and ends without
accelerator: nobody owns one, where the claim has min(1, 1) = 1 owner. -/
theorem detector_count_fails :
    (owners 2 (fun d => decide (d = 0)) (fun _ => false) 2 1).length
      ≠ min (suitable 2 (fun d => decide (d = 0))).length (eligible 2 1).length := by
  decide

/-- C9, amended. On a machine with `nGo >= 0` devices, when every device index `r - 1`
that the loop examines is one of the devices `0 .. nGo-1` (the ranks examined are those
with `startpos <= r < machineSize` and `r < startpos + nGo`; this is so for
`startpos = 1`): a process is bound only to a device without execution timeout, no two
processes are bound to the same device, each process is bound to at most one device, the
processes that end up owning an accelerator are exactly the examined ranks `r` whose
device `r - 1` has no execution timeout, each bound to that device, and their number is
at most the minimum of the number of suitable devices and the number of eligible
processes. Nothing is stated for inputs that make the loop examine an index that is no
device. -/
theorem detector_assignment (nGo : Int) (hn : 0 ≤ nGo)
    (kernelExecTimeoutEnabled uninit : Int → Bool) (machineSize startpos : Int)
    (hvalid : ∀ r, startpos ≤ r → r < machineSize → r < startpos + nGo →
      0 ≤ r - 1 ∧ r - 1 < nGo) :
    (∀ r d, d ∈ (detector nGo kernelExecTimeoutEnabled uninit machineSize startpos r).bound →
        kernelExecTimeoutEnabled d = false)
    ∧ (∀ r r' d,
        d ∈ (detector nGo kernelExecTimeoutEnabled uninit machineSize startpos r).bound →
        d ∈ (detector nGo kernelExecTimeoutEnabled uninit machineSize startpos r').bound →
        r = r')
    ∧ (∀ r,
        (detector nGo kernelExecTimeoutEnabled uninit machineSize startpos r).bound.length ≤ 1)
    ∧ (∀ r, ((detector nGo kernelExecTimeoutEnabled uninit machineSize startpos r).hasG = true ↔
          startpos ≤ r ∧ r < machineSize ∧ r < startpos + nGo
            ∧ kernelExecTimeoutEnabled (r - 1) = false)
        ∧ (detector nGo kernelExecTimeoutEnabled uninit machineSize startpos r).bound
            = if (detector nGo kernelExecTimeoutEnabled uninit machineSize startpos r).hasG
              then [r - 1] else [])
    ∧ owners nGo kernelExecTimeoutEnabled uninit machineSize startpos
        = (indices 0 machineSize.toNat).filter
            (fun r => decide (startpos ≤ r ∧ r < startpos + nGo)
              && !kernelExecTimeoutEnabled (r - 1))
    ∧ (owners nGo kernelExecTimeoutEnabled uninit machineSize startpos).length
        ≤ min (suitable nGo kernelExecTimeoutEnabled).length
            (eligible machineSize startpos).length := by
  have hd : ∀ r,
      ((detector nGo kernelExecTimeoutEnabled uninit machineSize startpos r).hasG = true ↔
          startpos ≤ r ∧ r < machineSize ∧ r < startpos + nGo
            ∧ kernelExecTimeoutEnabled (r - 1) = false)
      ∧ (detector nGo kernelExecTimeoutEnabled uninit machineSize startpos r).bound
          = if (detector nGo kernelExecTimeoutEnabled uninit machineSize startpos r).hasG
            then [r - 1] else [] := by
    intro r
    obtain ⟨h1, h2⟩ := detector_eq nGo hn kernelExecTimeoutEnabled uninit machineSize startpos r
    constructor
    · rw [h1]
      constructor
      · rintro ⟨a, b, c, d⟩
        have hv := hvalid r a b c
        rw [cudaGetDeviceProperties, if_pos hv] at d
        exact ⟨a, b, c, d⟩
      · rintro ⟨a, b, c, d⟩
        have hv := hvalid r a b c
        refine ⟨a, b, c, ?_⟩
        rw [cudaGetDeviceProperties, if_pos hv]
        exact d
    · rw [h2]
      by_cases hG : (detector nGo kernelExecTimeoutEnabled uninit machineSize startpos r).hasG
          = true
      · obtain ⟨a, b, c, _⟩ := h1.1 hG
        have hv := hvalid r a b c
        simp [hG, cudaSetDevice, hv]
      · simp [hG]
  have hmem : ∀ r d,
      d ∈ (detector nGo kernelExecTimeoutEnabled uninit machineSize startpos r).bound →
      d = r - 1 ∧ kernelExecTimeoutEnabled (r - 1) = false := by
    intro r d hdm
    rw [(hd r).2] at hdm
    by_cases hG : (detector nGo kernelExecTimeoutEnabled uninit machineSize startpos r).hasG
        = true
    · rw [if_pos hG] at hdm
      exact ⟨by simpa using hdm, ((hd r).1.1 hG).2.2.2⟩
    · rw [if_neg hG] at hdm
      simp at hdm
  have hown : owners nGo kernelExecTimeoutEnabled uninit machineSize startpos
      = (indices 0 machineSize.toNat).filter
          (fun r => decide (startpos ≤ r ∧ r < startpos + nGo)
            && !kernelExecTimeoutEnabled (r - 1)) := by
    unfold owners
    apply List.filter_congr
    intro r hr
    rw [mem_indices] at hr
    rw [Bool.eq_iff_iff, (hd r).1]
    simp only [Bool.and_eq_true, decide_eq_true_eq, Bool.not_eq_true']
    constructor
    · rintro ⟨a, _, c, d⟩
      exact ⟨⟨a, c⟩, d⟩
    · rintro ⟨⟨a, c⟩, d⟩
      exact ⟨a, by omega, c, d⟩
  refine ⟨?_, ?_, ?_, hd, hown, ?_⟩
  · intro r d hdm
    obtain ⟨h1, h2⟩ := hmem r d hdm
    rw [h1]
    exact h2
  · intro r r' d h h'
    have h1 := (hmem r d h).1
    have h2 := (hmem r' d h').1
    omega
  · intro r
    rw [(hd r).2]
    split <;> simp
  · refine le_min ?_ ?_
    · have hnd : ((owners nGo kernelExecTimeoutEnabled uninit machineSize startpos).map
          (fun r => r - 1)).Nodup := by
        refine List.Nodup.map (fun a b h => by simpa using h) ?_
        exact List.Nodup.filter _ (indices_nodup 0 _)
      have hsub : (owners nGo kernelExecTimeoutEnabled uninit machineSize startpos).map
          (fun r => r - 1) ⊆ suitable nGo kernelExecTimeoutEnabled := by
        intro d hdm
        obtain ⟨r, hr, rfl⟩ := List.mem_map.1 hdm
        rw [hown, List.mem_filter, mem_indices] at hr
        obtain ⟨hr1, hr2⟩ := hr
        simp only [Bool.and_eq_true, decide_eq_true_eq, Bool.not_eq_true'] at hr2
        have hv := hvalid r hr2.1.1 (by omega) hr2.1.2
        rw [suitable, List.mem_filter, mem_indices]
        exact ⟨by omega, by simp [hr2.2]⟩
      have := (List.subperm_of_subset hnd hsub).length_le
      simpa using this
    · rw [hown]
      exact (List.monotone_filter_right _ (fun a h => by
        simp only [Bool.and_eq_true, decide_eq_true_eq] at h
        simpa using h.1.1)).length_le

/-- C9, amended, on a machine with two devices, the first with execution timeout, three
processes and `startpos = 1`: rank 2 alone owns an accelerator, device 1. -/
theorem detector_assignment_witness :
    owners 2 (fun d => decide (d = 0)) (fun _ => false) 3 1
      = (indices 0 (3 : Int).toNat).filter
          (fun r => decide ((1 : Int) ≤ r ∧ r < 1 + 2) && !decide (r - 1 = 0)) :=
  (detector_assignment 2 (by decide) (fun d => decide (d = 0)) (fun _ => false) 3 1
    (fun r h1 h2 _ => by omega)).2.2.2.2.1

end Detector

/-! ## The four copies between host and accelerator -/

section Copies

variable {α : Type}

theorem Mem.write_apply (m : Mem α) (b : Buf) (k : Int) (v : α) (b' : Buf) (k' : Int) :
    m.write b k v b' k' = if b' = b ∧ k' = k then v else m b' k' := by
  unfold Mem.write
  by_cases hb : b' = b
  · subst hb
    by_cases hk : k' = k
    · subst hk
      simp
    · simp [Function.update, hk]
  · simp [Function.update, hb]

theorem Mem.write_same (m : Mem α) (b : Buf) (k : Int) (v : α) : m.write b k v b k = v := by
  simp [Mem.write_apply]

theorem Mem.write_other (m : Mem α) (b : Buf) (k : Int) (v : α) (b' : Buf) (k' : Int)
    (h : (b', k') ≠ (b, k)) : m.write b k v b' k' = m b' k' := by
  rw [Mem.write_apply, if_neg]
  rintro ⟨rfl, rfl⟩
  exact h rfl

/-- One moment of one copy keeps a flight consistent, when the destinations are pairwise
distinct and no source is a destination. -/
theorem Flight.agrees_step (Ts : List Transfer) (m : Mem α)
    (hnd : ∀ (i j : Nat) (Ti Tj : Transfer), Ts[i]? = some Ti → Ts[j]? = some Tj →
      Ti.dst = Tj.dst → i = j)
    (hsd : ∀ (i j : Nat) (Ti Tj : Transfer), Ts[i]? = some Ti → Ts[j]? = some Tj →
      Ti.src ≠ Tj.dst)
    (s s' : Flight α) (e : CopyEvent) (hs : s.agrees Ts m) (hstep : s.step Ts e = some s') :
    s'.agrees Ts m := by
  obtain ⟨h1, h2⟩ := hs
  cases e with
  | load i =>
      simp only [Flight.step] at hstep
      cases hT : Ts[i]? with
      | none => simp [hT] at hstep
      | some T =>
          cases hst : s.stage i with
          | loaded v => simp [hT, hst] at hstep
          | stored => simp [hT, hst] at hstep
          | issued =>
              simp only [hT, hst, Option.some.injEq] at hstep
              subst hstep
              have hsrc : s.mem T.src.1 T.src.2 = m T.src.1 T.src.2 :=
                h2 _ _ (fun j Tj hj heq => hsd i j T Tj hT hj heq.symm)
              refine ⟨fun j Tj hj => ?_, h2⟩
              by_cases hji : j = i
              · subst hji
                have hTT : Tj = T := by rw [hT] at hj; exact (Option.some.inj hj).symm
                subst hTT
                simp only [Function.update_same]
                refine ⟨fun h => ?_, fun v hv => ?_, fun h => ?_⟩
                · cases h
                · cases hv
                  exact ⟨hsrc, (h1 j Tj hT).1 hst⟩
                · cases h
              · simp only [Function.update_noteq hji]
                exact h1 j Tj hj
  | store i =>
      simp only [Flight.step] at hstep
      cases hT : Ts[i]? with
      | none => simp [hT] at hstep
      | some T =>
          cases hst : s.stage i with
          | issued => simp [hT, hst] at hstep
          | stored => simp [hT, hst] at hstep
          | loaded v =>
              simp only [hT, hst, Option.some.injEq] at hstep
              subst hstep
              have hv := ((h1 i T hT).2.1 v hst).1
              refine ⟨fun j Tj hj => ?_, fun b k hbk => ?_⟩
              · by_cases hji : j = i
                · subst hji
                  have hTT : Tj = T := by rw [hT] at hj; exact (Option.some.inj hj).symm
                  subst hTT
                  simp only [Function.update_same, Mem.write_same]
                  refine ⟨fun h => ?_, fun w hw => ?_, fun _ => hv⟩
                  · cases h
                  · cases hw
                · have hne : (Tj.dst.1, Tj.dst.2) ≠ (T.dst.1, T.dst.2) := by
                    intro heq
                    exact hji (hnd j i Tj T hj hT heq)
                  simp only [Function.update_noteq hji, Mem.write_other _ _ _ _ _ _ hne]
                  exact h1 j Tj hj
              · have hne : (b, k) ≠ (T.dst.1, T.dst.2) := fun heq => hbk i T hT heq.symm
                simp only [Mem.write_other _ _ _ _ _ _ hne]
                exact h2 b k hbk

theorem Flight.agrees_run (Ts : List Transfer) (m : Mem α)
    (hnd : ∀ (i j : Nat) (Ti Tj : Transfer), Ts[i]? = some Ti → Ts[j]? = some Tj →
      Ti.dst = Tj.dst → i = j)
    (hsd : ∀ (i j : Nat) (Ti Tj : Transfer), Ts[i]? = some Ti → Ts[j]? = some Tj →
      Ti.src ≠ Tj.dst)
    (sched : List CopyEvent) :
    ∀ s s' : Flight α, s.agrees Ts m → Flight.run Ts sched s = some s' → s'.agrees Ts m := by
  induction sched with
  | nil =>
      intro s s' hs hrun
      simp only [Flight.run, Option.some.injEq] at hrun
      exact hrun ▸ hs
  | cons e es ih =>
      intro s s' hs hrun
      simp only [Flight.run] at hrun
      cases hst : s.step Ts e with
      | none => simp [hst] at hrun
      | some s1 =>
          rw [hst] at hrun
          exact ih s1 s' (Flight.agrees_step Ts m hnd hsd s s1 e hs hst) hrun

theorem Flight.agrees_start (Ts : List Transfer) (m : Mem α) :
    (Flight.start m).agrees Ts m :=
  ⟨fun _ _ _ => ⟨fun _ => rfl, fun _ h => Stage.noConfusion h, fun h => Stage.noConfusion h⟩,
    fun _ _ _ => rfl⟩

theorem transfers_getElem? (xc xg : Int) (i : Nat) (T : Transfer)
    (h : (transfers xc xg)[i]? = some T) :
    (i = 0 ∧ T = { dst := (Buf.dState, 0), src := (Buf.state 0, xc) })
    ∨ (i = 1 ∧ T = { dst := (Buf.dState, xg + 1), src := (Buf.state 2, 1) })
    ∨ (i = 2 ∧ T = { dst := (Buf.state 0, xc + 1), src := (Buf.dState, 1) })
    ∨ (i = 3 ∧ T = { dst := (Buf.state 2, 0), src := (Buf.dState, xg) }) := by
  simp only [transfers] at h
  match i, h with
  | 0, h => left; exact ⟨rfl, by simpa using h.symm⟩
  | 1, h => right; left; exact ⟨rfl, by simpa using h.symm⟩
  | 2, h => right; right; left; exact ⟨rfl, by simpa using h.symm⟩
  | 3, h => right; right; right; exact ⟨rfl, by simpa using h.symm⟩
  | n + 4, h => simp at h

theorem transfers_dst_distinct (xc xg : Int) (hxg : 1 ≤ xg) (i j : Nat) (Ti Tj : Transfer)
    (hi : (transfers xc xg)[i]? = some Ti) (hj : (transfers xc xg)[j]? = some Tj)
    (heq : Ti.dst = Tj.dst) : i = j := by
  rcases transfers_getElem? xc xg i Ti hi with ⟨rfl, rfl⟩ | ⟨rfl, rfl⟩ | ⟨rfl, rfl⟩ | ⟨rfl, rfl⟩ <;>
    rcases transfers_getElem? xc xg j Tj hj with
      ⟨rfl, rfl⟩ | ⟨rfl, rfl⟩ | ⟨rfl, rfl⟩ | ⟨rfl, rfl⟩ <;>
    simp at heq ⊢ <;> omega

theorem transfers_src_not_dst (xc xg : Int) (hxg : 1 ≤ xg) (i j : Nat) (Ti Tj : Transfer)
    (hi : (transfers xc xg)[i]? = some Ti) (hj : (transfers xc xg)[j]? = some Tj) :
    Ti.src ≠ Tj.dst := by
  rcases transfers_getElem? xc xg i Ti hi with ⟨rfl, rfl⟩ | ⟨rfl, rfl⟩ | ⟨rfl, rfl⟩ | ⟨rfl, rfl⟩ <;>
    rcases transfers_getElem? xc xg j Tj hj with
      ⟨rfl, rfl⟩ | ⟨rfl, rfl⟩ | ⟨rfl, rfl⟩ | ⟨rfl, rfl⟩ <;>
    simp <;> omega

theorem afterTransfers_cells (xc xg : Int) (hxg : 1 ≤ xg) (m : Mem α) :
    afterTransfers xc xg m Buf.dState 0 = m (Buf.state 0) xc
    ∧ afterTransfers xc xg m Buf.dState (xg + 1) = m (Buf.state 2) 1
    ∧ afterTransfers xc xg m (Buf.state 0) (xc + 1) = m Buf.dState 1
    ∧ afterTransfers xc xg m (Buf.state 2) 0 = m Buf.dState xg
    ∧ ∀ b k, (b, k) ∉ (transfers xc xg).map Transfer.dst →
        afterTransfers xc xg m b k = m b k := by
  have h1 : ¬ xg + 1 = 0 := by omega
  refine ⟨by simp [afterTransfers], by simp [afterTransfers, h1], by simp [afterTransfers],
    by simp [afterTransfers], ?_⟩
  intro b k hbk
  simp only [transfers, List.map_cons, List.map_nil, List.mem_cons, Prod.mk.injEq,
    List.mem_singleton, List.not_mem_nil, or_false, not_or] at hbk
  obtain ⟨a1, a2, a3, a4⟩ := hbk
  simp only [afterTransfers, a1, a2, a3, a4, if_false]

theorem flight_result (xc xg : Int) (hxg : 1 ≤ xg) (m : Mem α) (s' : Flight α)
    (hag : s'.agrees (transfers xc xg) m)
    (hall : ∀ i : Nat, i < 4 → (s'.stage i).isStored = true) :
    s'.mem = afterTransfers xc xg m := by
  obtain ⟨h1, h2⟩ := hag
  have hst : ∀ i : Nat, i < 4 → s'.stage i = Stage.stored := by
    intro i hi
    have := hall i hi
    cases hs : s'.stage i <;> simp [hs, Stage.isStored] at this ⊢
  have c0 := (h1 0 { dst := (Buf.dState, 0), src := (Buf.state 0, xc) } rfl).2.2
    (hst 0 (by decide))
  have c1 := (h1 1 { dst := (Buf.dState, xg + 1), src := (Buf.state 2, 1) } rfl).2.2
    (hst 1 (by decide))
  have c2 := (h1 2 { dst := (Buf.state 0, xc + 1), src := (Buf.dState, 1) } rfl).2.2
    (hst 2 (by decide))
  have c3 := (h1 3 { dst := (Buf.state 2, 0), src := (Buf.dState, xg) } rfl).2.2
    (hst 3 (by decide))
  simp only at c0 c1 c2 c3
  have hc := afterTransfers_cells xc xg hxg m
  funext b k
  by_cases hmem : (b, k) ∈ (transfers xc xg).map Transfer.dst
  · simp only [transfers, List.map_cons, List.map_nil, List.mem_cons, Prod.mk.injEq,
      List.mem_singleton, List.not_mem_nil, or_false] at hmem
    rcases hmem with ⟨rfl, rfl⟩ | ⟨rfl, rfl⟩ | ⟨rfl, rfl⟩ | ⟨rfl, rfl⟩
    · rw [c0, hc.1]
    · rw [c1, hc.2.1]
    · rw [c2, hc.2.2.1]
    · rw [c3, hc.2.2.2.1]
  · rw [hc.2.2.2.2 b k hmem]
    refine h2 b k (fun i T hT heq => hmem ?_)
    rw [← heq]
    exact List.mem_map_of_mem _ (List.mem_iff_getElem?.2 ⟨i, hT⟩)

/-- C10. For an accelerator point count `xg >= 1` and any host half-count `xc` (so for
`xc >= 1`): the four copies of an iteration of the accelerator branch write four
different cells and read none of the cells they write. Hence, in whatever order the
four reads and four writes happen (each read before its write), once the four copies are
complete the memory is the one obtained in program order: `dState[0]` holds what
`state[0][xc]` held, `dState[xg+1]` what `state[2][1]` held, `state[0][xc+1]` what
`dState[1]` held, `state[2][0]` what `dState[xg]` held, and every other cell of every
buffer holds what it held before. -/
theorem boundary_reconciliation (xc xg : Int) (hxg : 1 ≤ xg) (m : Mem α) :
    ((transfers xc xg).map Transfer.dst).Nodup
    ∧ (∀ T ∈ transfers xc xg, ∀ T' ∈ transfers xc xg, T.src ≠ T'.dst)
    ∧ (transfers xc xg).foldl Transfer.run m = afterTransfers xc xg m
    ∧ (∃ s' : Flight α,
        Flight.run (transfers xc xg)
          [CopyEvent.load 0, CopyEvent.store 0, CopyEvent.load 1, CopyEvent.store 1,
           CopyEvent.load 2, CopyEvent.store 2, CopyEvent.load 3, CopyEvent.store 3]
          (Flight.start m) = some s'
        ∧ ∀ i : Nat, i < 4 → (s'.stage i).isStored = true)
    ∧ (∀ (sched : List CopyEvent) (s' : Flight α),
        Flight.run (transfers xc xg) sched (Flight.start m) = some s' →
        (∀ i : Nat, i < 4 → (s'.stage i).isStored = true) →
        s'.mem = afterTransfers xc xg m)
    ∧ afterTransfers xc xg m Buf.dState 0 = m (Buf.state 0) xc
    ∧ afterTransfers xc xg m Buf.dState (xg + 1) = m (Buf.state 2) 1
    ∧ afterTransfers xc xg m (Buf.state 0) (xc + 1) = m Buf.dState 1
    ∧ afterTransfers xc xg m (Buf.state 2) 0 = m Buf.dState xg
    ∧ ∀ b k, (b, k) ∉ (transfers xc xg).map Transfer.dst →
        afterTransfers xc xg m b k = m b k := by
  have hnd := transfers_dst_distinct xc xg hxg
  have hsd := transfers_src_not_dst xc xg hxg
  have hany : ∀ (sched : List CopyEvent) (s' : Flight α),
      Flight.run (transfers xc xg) sched (Flight.start m) = some s' →
      (∀ i : Nat, i < 4 → (s'.stage i).isStored = true) →
      s'.mem = afterTransfers xc xg m := by
    intro sched s' hrun hall
    exact flight_result xc xg hxg m s'
      (Flight.agrees_run _ m hnd hsd sched _ s' (Flight.agrees_start _ m) hrun) hall
  have hprog : ∃ s' : Flight α,
      Flight.run (transfers xc xg)
        [CopyEvent.load 0, CopyEvent.store 0, CopyEvent.load 1, CopyEvent.store 1,
         CopyEvent.load 2, CopyEvent.store 2, CopyEvent.load 3, CopyEvent.store 3]
        (Flight.start m) = some s'
      ∧ s'.mem = (transfers xc xg).foldl Transfer.run m
      ∧ ∀ i : Nat, i < 4 → (s'.stage i).isStored = true := by
    refine ⟨_, rfl, rfl, ?_⟩
    intro i hi
    match i, hi with
    | 0, _ => rfl
    | 1, _ => rfl
    | 2, _ => rfl
    | 3, _ => rfl
  obtain ⟨s0, hs0, hmem0, hall0⟩ := hprog
  refine ⟨?_, ?_, ?_, ⟨s0, hs0, hall0⟩, hany, afterTransfers_cells xc xg hxg m⟩
  · have h1 : ¬ xg + 1 = 0 := by omega
    have h2 : ¬ (0 : Int) = xg + 1 := by omega
    simp [transfers, h1, h2]
  · intro T hT T' hT'
    obtain ⟨i, hi⟩ := List.mem_iff_getElem?.1 hT
    obtain ⟨j, hj⟩ := List.mem_iff_getElem?.1 hT'
    exact hsd i j T T' hi hj
  · rw [← hmem0]
    exact hany _ s0 hs0 hall0

/-- C10 with 4 accelerator points and a host half-count of 4, on the memory `ramp`. -/
theorem boundary_reconciliation_witness :
    (transfers 4 4).foldl Transfer.run ramp = afterTransfers 4 4 ramp :=
  (boundary_reconciliation 4 4 (by decide) ramp).2.2.1

end Copies

end HSweep
